import Mathlib

/-! go_lfu_cache: a shallow embedding of `go-lfu-cache.go`.

The Go package keeps a `map[string]*CacheValue` behind a mutex.  The embedding
below follows the source function by function.

Modelling conventions.

* A Go map is an association list `List (String × CacheValue α)`; the position
  of a pair in the list carries no meaning.  A Go map never holds one key twice,
  and `Set` files every entry it allocates under the entry's own `key` field;
  `Cache.WF` states both facts, and they hold in every state the package can
  reach (`Reachable.wf`).  Under `WF` no two map slots share an entry, so the
  pointer `*CacheValue` is modelled by the entry itself.
* `for ... := range c.values` visits the pairs of the map in an order Go leaves
  unspecified.  Every function that ranges over the map to build a sequence takes
  the visited sequence as its first argument `range`; `Cache.IsRange c range`
  says that `range` is a rearrangement of the map's pairs.  The loop that resets
  the frequencies writes the same constant to every entry, so its result does
  not depend on the order.
* Go's `any` is `Option α`, with `none` for the `nil` interface value.
* Go's `int` is the 64-bit two's complement integer, embedded in `Int`: an
  arithmetic result is reduced by `wrapInt` (a 32-bit target differs only in
  the constants `maxInt`, `minInt` and the modulus).  `freq++` wraps in this way.  The
  other arithmetic is exact on values of type `int` and is written without
  `wrapInt`: `min` never leaves the range, `len(temp)-count` lies outside
  `[0, len(temp)]` for every negative `count` whether or not it wraps, and
  `UpperBound - LowerBound` is exact whenever the two bounds have the same sign
  (with bounds of opposite sign at the ends of the range, which the data model
  excludes, the Go subtraction can wrap; that case is not modelled).  A slice
  expression whose bound is out of range panics, which is `none` in the result
  of `Evict` and `Set`.
* The mutex is not part of the state of the functions below: every call that
  returns leaves it released.  What one call does to the mutex and to the map,
  in program order, is listed separately (`Cache.SetEvents`, `Cache.GetEvents`,
  `Cache.EvictEvents`, `Cache.QueryEvents`); interleavings of several threads
  are not modelled.
-/

namespace GoLfuCache

/-- The largest value of Go's `int` on a 64-bit target, `math.MaxInt64`. -/
def maxInt : Int := 9223372036854775807

/-- The smallest value of Go's `int` on a 64-bit target, `math.MinInt64`. -/
def minInt : Int := -9223372036854775808

/-- The value of type `int` that an arithmetic result wraps around to. -/
def wrapInt (x : Int) : Int :=
  (x + 9223372036854775808) % 18446744073709551616 - 9223372036854775808

/-- Cache value structure (`type CacheValue struct`). -/
structure CacheValue (α : Type) where
  value : Option α
  freq : Int
  key : String
deriving DecidableEq

/-- The Go map `map[string]*CacheValue`. -/
abbrev GoMap (α : Type) := List (String × CacheValue α)

/-- Map index expression `m[key]` in its comma-ok form. -/
def mapIndex {α : Type} : GoMap α → String → Option (CacheValue α)
  | [], _ => none
  | (k, e) :: m, key => if k = key then some e else mapIndex m key

/-- The builtin `delete(m, key)`. -/
def mapDelete {α : Type} (m : GoMap α) (key : String) : GoMap α :=
  m.filter (fun p => decide (p.1 ≠ key))

/-- A write through the pointer stored under `key`. -/
def mapModify {α : Type} (m : GoMap α) (key : String)
    (f : CacheValue α → CacheValue α) : GoMap α :=
  m.map (fun p => (p.1, if p.1 = key then f p.2 else p.2))

/-- Map assignment `m[key] = e`. -/
def mapAssign {α : Type} (m : GoMap α) (key : String) (e : CacheValue α) : GoMap α :=
  match mapIndex m key with
  | some _ => mapModify m key (fun _ => e)
  | none => m ++ [(key, e)]

/-- The library function `cmp.Compare` at type `int`. -/
def cmpCompare (x y : Int) : Int :=
  if x < y then -1 else if y < x then 1 else 0

/-- The library function `slices.SortStableFunc`: a stable sort that puts `a`
before `b` whenever `cmp a b < 0` and keeps the order of elements that compare
as equal. -/
def SortStableFunc {β : Type} (x : List β) (cmp : β → β → Int) : List β :=
  x.insertionSort (fun a b => cmp a b ≤ 0)

/-- Cache structure (`type Cache struct`), without the mutex. -/
structure Cache (α : Type) where
  UpperBound : Int
  LowerBound : Int
  values : GoMap α
deriving DecidableEq

/-- Creates new Cache instance. -/
def New {α : Type} : Cache α := ⟨0, 0, []⟩

namespace Cache

variable {α : Type}

/-- Every key occurs once in the map and every entry is filed under its own
`key` field. -/
def WF (c : Cache α) : Prop :=
  (c.values.map Prod.fst).Nodup ∧ ∀ p ∈ c.values, p.2.key = p.1

/-- The sequence `range` is one order in which `range c.values` can visit the
map. -/
def IsRange (c : Cache α) (range : GoMap α) : Prop :=
  range.Perm c.values

/-- The field assignments `c.UpperBound = u` and `c.LowerBound = l`. -/
def setBounds (c : Cache α) (u l : Int) : Cache α :=
  { c with UpperBound := u, LowerBound := l }

/-- Checks if cache has this key. -/
def Has (c : Cache α) (key : String) : Bool :=
  match mapIndex c.values key with
  | some _ => true
  | none => false

/-- The helper `increment`: `e.freq++`, which wraps around at `maxInt`. -/
def increment (e : CacheValue α) : CacheValue α :=
  { e with freq := wrapInt (e.freq + 1) }

/-- Return value with key if it exists and increases freq for it, or nil if it
doesn't.  The result is the returned value and the state after the call. -/
def Get (c : Cache α) (key : String) : Option α × Cache α :=
  match mapIndex c.values key with
  | some e => (e.value, { c with values := mapModify c.values key increment })
  | none => (none, c)

/-- Returns cache len. -/
def Len (c : Cache α) : Int :=
  (c.values.length : Int)

/-- Returns freq of cache value with key, 0 if element doesn't exist. -/
def GetFrequency (c : Cache α) (key : String) : Int :=
  match mapIndex c.values key with
  | some val => val.freq
  | none => 0

/-- Returns all keys from Cache: `keys := make([]string, len(c.values))`
followed by one `append` per visited key. -/
def Keys (range : GoMap α) (c : Cache α) : List String :=
  range.foldl (fun keys p => keys ++ [p.1]) (List.replicate c.values.length "")

/-- The comparison closure handed to `slices.SortStableFunc` in `Evict`. -/
def evictCmp (a b : CacheValue α) : Int :=
  -cmpCompare a.freq b.freq

/-- Deletes least frequently used elements from cache; returns the state after
the call and the number of deleted elements, or `none` when the slice expression
`temp[len(temp)-count:]` panics. -/
def Evict (range : GoMap α) (c : Cache α) (count : Int) : Option (Cache α × Int) :=
  let count := min (c.values.length : Int) count
  let temp := range.map Prod.snd
  let temp := SortStableFunc temp evictCmp
  let low := (temp.length : Int) - count
  if 0 ≤ low ∧ low ≤ (temp.length : Int) then
    let to_delete := temp.drop low.toNat
    let values := to_delete.foldl (fun m el => mapDelete m el.key) c.values
    let values := values.map (fun p => (p.1, { p.2 with freq := 1 }))
    some ({ c with values := values }, count)
  else
    none

/-- Saves values with key.  `range` is the order in which the eviction pass, if
one runs, visits the map. -/
def Set (range : GoMap α) (c : Cache α) (key : String) (value : Option α) :
    Option (Cache α) :=
  match mapIndex c.values key with
  | some _ =>
    some { c with values := mapModify c.values key (fun e => { e with value := value }) }
  | none =>
    if (c.values.length : Int) ≥ c.UpperBound ∧ c.UpperBound ≠ 0 ∧ c.LowerBound ≠ 0 then
      match Evict range c (c.UpperBound - c.LowerBound) with
      | some (c', _) =>
        some { c' with values := mapAssign c'.values key ⟨value, 1, key⟩ }
      | none => none
    else
      some { c with values := mapAssign c.values key ⟨value, 1, key⟩ }

end Cache

/-- One call of a public operation.  The operations that range over the map
carry the order in which that call visits it. -/
inductive Op (α : Type) where
  | Has (key : String)
  | Get (key : String)
  | Set (range : GoMap α) (key : String) (value : Option α)
  | Len
  | GetFrequency (key : String)
  | Keys (range : GoMap α)
  | Evict (range : GoMap α) (count : Int)

/-- The state in which the call returns, `none` when it panics. -/
def Op.apply {α : Type} (c : Cache α) : Op α → Option (Cache α)
  | Op.Has _ => some c
  | Op.Get key => some (c.Get key).2
  | Op.Set range key value => c.Set range key value
  | Op.Len => some c
  | Op.GetFrequency _ => some c
  | Op.Keys _ => some c
  | Op.Evict range count => (c.Evict range count).map Prod.fst

/-- The visiting order a call carries is an order of the map it is called on. -/
def Op.Valid {α : Type} (c : Cache α) : Op α → Prop
  | Op.Set range _ _ => c.IsRange range
  | Op.Keys range => c.IsRange range
  | Op.Evict range _ => c.IsRange range
  | _ => True

/-- The states reached from `init` by a sequence of public calls that all
return. -/
inductive Reachable {α : Type} (init : Cache α) : Cache α → Prop where
  | start : Reachable init init
  | step {c c' : Cache α} (op : Op α) :
      Reachable init c → op.Valid c → op.apply c = some c' → Reachable init c'

/-- The cache of the bounded-eviction scenario just before `Set("e")`:
bounds 4 and 2, frequencies a=3, b=2, c=1, d=1. -/
def scenario : Cache Nat :=
  ⟨4, 2, [("a", ⟨some 1, 3, "a"⟩), ("b", ⟨some 2, 2, "b"⟩),
          ("c", ⟨some 3, 1, "c"⟩), ("d", ⟨some 4, 1, "d"⟩)]⟩

/-- One order in which `range` can visit the map of `scenario`. -/
def scenarioRange : GoMap Nat :=
  [("b", ⟨some 2, 2, "b"⟩), ("a", ⟨some 1, 3, "a"⟩),
   ("c", ⟨some 3, 1, "c"⟩), ("d", ⟨some 4, 1, "d"⟩)]

/-- Bounds 2 and 1, after `Set("a", 1)`. -/
def oneKey : Cache Nat := ⟨2, 1, [("a", ⟨some 1, 1, "a"⟩)]⟩

/-- Bounds 2 and 1, after `Set("a", 1)` and `Set("b", 2)`. -/
def twoKeys : Cache Nat := ⟨2, 1, [("a", ⟨some 1, 1, "a"⟩), ("b", ⟨some 2, 1, "b"⟩)]⟩

/-- An unbounded cache (bounds 0 and 5) holding the key `a`. -/
def unbounded : Cache Nat := ⟨0, 5, [("a", ⟨some 1, 2, "a"⟩)]⟩

/-- A cache holding the single key `a`. -/
def single : Cache Nat := ⟨0, 0, [("a", ⟨some 1, 1, "a"⟩)]⟩

/-- A cache with `UpperBound = 1 < LowerBound = 2` holding the key `a`. -/
def misconfigured : Cache Nat := ⟨1, 2, [("a", ⟨some 1, 1, "a"⟩)]⟩

/-- The slice `to_delete` that `Evict` cuts from the sorted sequence. -/
def Cache.toDelete {α : Type} (range : GoMap α) (c : Cache α) (count : Int) :
    List (CacheValue α) :=
  let count := min (c.values.length : Int) count
  let temp := SortStableFunc (range.map Prod.snd) Cache.evictCmp
  temp.drop ((temp.length : Int) - count).toNat

/-- The states reached from `New()` by a sequence of public calls that all
return, with assignments to the two bound fields anywhere in between. -/
inductive ReachableNew {α : Type} : Cache α → Prop where
  | new : ReachableNew New
  | bounds {c : Cache α} (u l : Int) : ReachableNew c → ReachableNew (c.setBounds u l)
  | call {c c' : Cache α} (op : Op α) :
      ReachableNew c → op.Valid c → op.apply c = some c' → ReachableNew c'

/-- The call runs an eviction pass: it is `Evict`, or a `Set` of a key not
present whose bound check succeeds. -/
def Op.Evicts {α : Type} (c : Cache α) : Op α → Prop
  | Op.Evict _ _ => True
  | Op.Set _ key _ =>
    c.Has key = false ∧ (c.Len ≥ c.UpperBound ∧ c.UpperBound ≠ 0 ∧ c.LowerBound ≠ 0)
  | _ => False

/-- The call makes a frequency wrap around: it is a `Get` of a key whose
frequency has reached `maxInt`. -/
def Op.Overflows {α : Type} (c : Cache α) : Op α → Prop
  | Op.Get key => maxInt ≤ c.GetFrequency key
  | _ => False

/-- The states reached from `New()` by a sequence of public calls that all
return and of which none makes a frequency wrap around, with assignments to the
two bound fields anywhere in between. -/
inductive ReachableNoOverflow {α : Type} : Cache α → Prop where
  | new : ReachableNoOverflow New
  | bounds {c : Cache α} (u l : Int) :
      ReachableNoOverflow c → ReachableNoOverflow (c.setBounds u l)
  | call {c c' : Cache α} (op : Op α) :
      ReachableNoOverflow c → op.Valid c → ¬ op.Overflows c → op.apply c = some c' →
      ReachableNoOverflow c'

/-- A cache holding the single key `a`, whose frequency is `maxInt`. -/
def maxed : Cache Nat := ⟨0, 0, [("a", ⟨some 1, 9223372036854775807, "a"⟩)]⟩

/-- The `n` consecutive calls `Get(key)`: the returned values in call order and
the state after the last call. -/
def Cache.GetN {α : Type} (key : String) : Nat → Cache α → List (Option α) × Cache α
  | 0, c => ([], c)
  | n + 1, c =>
    let r := c.Get key
    let rest := Cache.GetN key n r.2
    (r.1 :: rest.1, rest.2)

/-- What a call does, in program order, to the mutex (`Lock`, `Unlock`) and to
the map and the bound fields (`Read`, `Write`). -/
inductive Event where
  | Lock
  | Unlock
  | Read
  | Write
deriving DecidableEq

/-- The events of `Evict`: `c.lock.Lock()`, the reads of the map, the
deletions and resets, and the deferred `c.lock.Unlock()`. -/
def Cache.EvictEvents : List Event :=
  [Event.Lock, Event.Read, Event.Write, Event.Unlock]

/-- The events of `Set`, along the branches `Set` takes in state `c`.  On a key
not present: `Lock`, the lookup, `c.lock.Unlock()`, the bound check
`len(c.values) >= c.UpperBound ...`, the events of `Evict` when the check
succeeds, `c.lock.Lock()`, the insertion, and the deferred `Unlock`. -/
def Cache.SetEvents {α : Type} (c : Cache α) (key : String) : List Event :=
  match mapIndex c.values key with
  | some _ => [Event.Lock, Event.Read, Event.Write, Event.Unlock]
  | none =>
    [Event.Lock, Event.Read, Event.Unlock, Event.Read]
      ++ (if (c.values.length : Int) ≥ c.UpperBound ∧ c.UpperBound ≠ 0 ∧ c.LowerBound ≠ 0
          then Cache.EvictEvents else [])
      ++ [Event.Lock, Event.Write, Event.Unlock]

/-- The events of `Get`: `Lock`, the lookup, the increment when the key is
present, and the deferred `Unlock`. -/
def Cache.GetEvents {α : Type} (c : Cache α) (key : String) : List Event :=
  match mapIndex c.values key with
  | some _ => [Event.Lock, Event.Read, Event.Write, Event.Unlock]
  | none => [Event.Lock, Event.Read, Event.Unlock]

/-- The events of `Has`, `Len`, `GetFrequency` and `Keys`: `Lock`, the reads,
and the deferred `Unlock`. -/
def Cache.QueryEvents : List Event :=
  [Event.Lock, Event.Read, Event.Unlock]

/-- Whether every `Read` and `Write` of the sequence happens while the mutex is
held; the first argument says whether it is held at the start. -/
def accessesLocked : Bool → List Event → Bool
  | _, [] => true
  | _, Event.Lock :: t => accessesLocked true t
  | _, Event.Unlock :: t => accessesLocked false t
  | held, Event.Read :: t => held && accessesLocked held t
  | held, Event.Write :: t => held && accessesLocked held t

/-- The number of times the sequence acquires the mutex. -/
def acquisitions (t : List Event) : Nat :=
  t.count Event.Lock

/-! ## Lemmas about the map model -/

theorem mapIndex_mem {α : Type} {m : GoMap α} {key : String} {e : CacheValue α}
    (h : mapIndex m key = some e) : (key, e) ∈ m := by
  induction m with
  | nil => simp [mapIndex] at h
  | cons p m ih =>
    obtain ⟨k, v⟩ := p
    by_cases hk : k = key
    · simp [mapIndex, hk] at h
      simp [hk, h]
    · simp only [mapIndex, hk, if_false] at h
      exact List.mem_cons_of_mem _ (ih h)

theorem mapIndex_eq_none_iff {α : Type} (m : GoMap α) (key : String) :
    mapIndex m key = none ↔ key ∉ m.map Prod.fst := by
  induction m with
  | nil => simp [mapIndex]
  | cons p m ih =>
    obtain ⟨k, v⟩ := p
    by_cases hk : k = key
    · simp [mapIndex, hk]
    · simp only [mapIndex, hk, if_false, ih, List.map_cons, List.mem_cons]
      constructor
      · rintro h (h1 | h1)
        · exact hk h1.symm
        · exact h h1
      · intro h h1
        exact h (Or.inr h1)

theorem nodup_keys_unique {α : Type} {m : GoMap α} (hn : (m.map Prod.fst).Nodup)
    {p q : String × CacheValue α} (hp : p ∈ m) (hq : q ∈ m) (h : p.1 = q.1) : p = q :=
  List.inj_on_of_nodup_map hn hp hq h

theorem mapIndex_of_mem {α : Type} {m : GoMap α} (hn : (m.map Prod.fst).Nodup)
    {key : String} {e : CacheValue α} (h : (key, e) ∈ m) : mapIndex m key = some e := by
  cases hi : mapIndex m key with
  | none =>
    exfalso
    exact (mapIndex_eq_none_iff m key).1 hi (List.mem_map.2 ⟨(key, e), h, rfl⟩)
  | some e' =>
    have h2 := nodup_keys_unique hn (mapIndex_mem hi) h rfl
    simp only [Prod.mk.injEq, true_and] at h2
    rw [h2]

theorem mapIndex_map_snd {α : Type} (m : GoMap α) (f : CacheValue α → CacheValue α)
    (key : String) :
    mapIndex (m.map (fun p => (p.1, f p.2))) key = (mapIndex m key).map f := by
  induction m with
  | nil => simp [mapIndex]
  | cons p m ih =>
    obtain ⟨k, v⟩ := p
    by_cases hk : k = key
    · simp [mapIndex, hk]
    · simp [mapIndex, hk, ih]

theorem mapIndex_filter {α : Type} (m : GoMap α) (q : String → Bool) (key : String) :
    mapIndex (m.filter (fun p => q p.1)) key = if q key then mapIndex m key else none := by
  induction m with
  | nil => simp [mapIndex]
  | cons p m ih =>
    obtain ⟨k, v⟩ := p
    by_cases hq : q k = true
    · by_cases hk : k = key
      · subst hk
        simp [List.filter_cons, hq, mapIndex]
      · simp [List.filter_cons, hq, mapIndex, hk, ih]
    · by_cases hk : k = key
      · subst hk
        simp [List.filter_cons, hq, mapIndex, ih]
      · simp [List.filter_cons, hq, mapIndex, hk, ih]

theorem mapIndex_modify {α : Type} (m : GoMap α) (key : String)
    (f : CacheValue α → CacheValue α) (k : String) :
    mapIndex (mapModify m key f) k
      = if k = key then (mapIndex m k).map f else mapIndex m k := by
  induction m with
  | nil => simp [mapModify, mapIndex]
  | cons p m ih =>
    obtain ⟨k0, v⟩ := p
    simp only [mapModify] at ih
    by_cases h2 : k0 = k
    · subst h2
      by_cases h1 : k0 = key
      · simp [mapModify, mapIndex, h1]
      · simp [mapModify, mapIndex, h1]
    · simp only [mapModify, List.map_cons, mapIndex, h2, if_false]
      exact ih

theorem mapIndex_append_single {α : Type} (m : GoMap α) (key : String) (e : CacheValue α)
    (k : String) :
    mapIndex (m ++ [(key, e)]) k
      = match mapIndex m k with
        | some x => some x
        | none => if key = k then some e else none := by
  induction m with
  | nil => simp [mapIndex]
  | cons p m ih =>
    obtain ⟨k0, v⟩ := p
    by_cases h : k0 = k
    · simp [mapIndex, h]
    · simp [mapIndex, h, ih]

theorem length_mapModify {α : Type} (m : GoMap α) (key : String)
    (f : CacheValue α → CacheValue α) : (mapModify m key f).length = m.length := by
  simp [mapModify]

theorem foldl_mapDelete {α : Type} (l : List (CacheValue α)) (m : GoMap α) :
    l.foldl (fun m el => mapDelete m el.key) m
      = m.filter (fun p => decide (p.1 ∉ l.map CacheValue.key)) := by
  induction l generalizing m with
  | nil => simp
  | cons a l ih =>
    rw [List.foldl_cons, ih, mapDelete, List.filter_filter]
    congr 1
    funext p
    simp only [List.map_cons, List.mem_cons, not_or, Bool.decide_and, ne_eq]
    exact Bool.and_comm _ _

/-! ## Wrap-around of `int` -/

theorem wrapInt_of_range {x : Int} (h1 : minInt ≤ x) (h2 : x ≤ maxInt) : wrapInt x = x := by
  unfold minInt at h1
  unfold maxInt at h2
  unfold wrapInt
  omega

theorem wrapInt_wrapInt_add (x y : Int) : wrapInt (wrapInt x + y) = wrapInt (x + y) := by
  unfold wrapInt
  omega

theorem le_wrapInt_succ {f : Int} (h : f < maxInt) : f ≤ wrapInt (f + 1) := by
  unfold maxInt at h
  unfold wrapInt
  omega

theorem wrapInt_succ_pos {f : Int} (h1 : 1 ≤ f) (h2 : f < maxInt) : 1 ≤ wrapInt (f + 1) := by
  unfold maxInt at h2
  unfold wrapInt
  omega

/-! ## The eviction pass -/

namespace Cache

variable {α : Type}

theorem evictCmp_le_iff (a b : CacheValue α) : evictCmp a b ≤ 0 ↔ b.freq ≤ a.freq := by
  unfold evictCmp cmpCompare
  split_ifs <;> omega

theorem evictCmp_total : IsTotal (CacheValue α) (fun a b => evictCmp a b ≤ 0) :=
  ⟨fun a b => by
    simp only [evictCmp_le_iff]
    omega⟩

theorem evictCmp_trans : IsTrans (CacheValue α) (fun a b => evictCmp a b ≤ 0) :=
  ⟨fun a b c => by
    simp only [evictCmp_le_iff]
    omega⟩

theorem SortStableFunc_perm {β : Type} (x : List β) (cmp : β → β → Int) :
    (SortStableFunc x cmp).Perm x :=
  List.perm_insertionSort _ x

theorem SortStableFunc_sorted (x : List (CacheValue α)) :
    (SortStableFunc x evictCmp).Pairwise (fun a b => b.freq ≤ a.freq) := by
  haveI : IsTotal (CacheValue α) (fun a b => evictCmp a b ≤ 0) := evictCmp_total
  haveI : IsTrans (CacheValue α) (fun a b => evictCmp a b ≤ 0) := evictCmp_trans
  have h : (SortStableFunc x evictCmp).Sorted (fun a b => evictCmp a b ≤ 0) :=
    List.sorted_insertionSort _ x
  exact List.Pairwise.imp (fun hab => (evictCmp_le_iff _ _).1 hab) h

/-- What one eviction pass does: the sorted sequence splits into a kept part
`K` and the deleted slice `D`, no frequency in `D` exceeds one in `K`, and the
map keeps the pairs whose key is not a key field of `D`, with frequency 1. -/
theorem Evict_split (range : GoMap α) (c : Cache α) (count : Int)
    (hr : c.IsRange range) (h0 : 0 ≤ count) :
    ∃ K D : List (CacheValue α),
      (K ++ D).Perm (c.values.map Prod.snd) ∧
      (D.length : Int) = min (c.values.length : Int) count ∧
      (∀ a ∈ K, ∀ b ∈ D, b.freq ≤ a.freq) ∧
      Evict range c count
        = some (⟨c.UpperBound, c.LowerBound,
                  (c.values.filter (fun p => decide (p.1 ∉ D.map CacheValue.key))).map
                    (fun p => (p.1, { p.2 with freq := 1 }))⟩,
                min (c.values.length : Int) count) := by
  have hlen : (SortStableFunc (range.map Prod.snd) evictCmp).length = c.values.length := by
    rw [(SortStableFunc_perm _ _).length_eq, List.length_map]
    exact List.Perm.length_eq hr
  have hlow : 0 ≤ (c.values.length : Int) - min (c.values.length : Int) count ∧
      (c.values.length : Int) - min (c.values.length : Int) count ≤ (c.values.length : Int) := by
    omega
  refine ⟨(SortStableFunc (range.map Prod.snd) evictCmp).take
            ((c.values.length : Int) - min (c.values.length : Int) count).toNat,
          (SortStableFunc (range.map Prod.snd) evictCmp).drop
            ((c.values.length : Int) - min (c.values.length : Int) count).toNat, ?_, ?_, ?_, ?_⟩
  · rw [List.take_append_drop]
    exact (SortStableFunc_perm _ _).trans (List.Perm.map _ hr)
  · rw [List.length_drop, hlen]
    omega
  · have hs := SortStableFunc_sorted (range.map Prod.snd)
    rw [← List.take_append_drop
      ((c.values.length : Int) - min (c.values.length : Int) count).toNat
      (SortStableFunc (range.map Prod.snd) evictCmp)] at hs
    exact (List.pairwise_append.1 hs).2.2
  · unfold Evict
    simp only [hlen, hlow, and_self, if_true, foldl_mapDelete]

theorem mem_deleted {c : Cache α} (hwf : c.WF) {K D : List (CacheValue α)}
    (hp : (K ++ D).Perm (c.values.map Prod.snd)) {p : String × CacheValue α}
    (hm : p ∈ c.values) (hk : p.1 ∈ D.map CacheValue.key) : p.2 ∈ D := by
  obtain ⟨el, hel, hkey⟩ := List.mem_map.1 hk
  have h1 : el ∈ c.values.map Prod.snd := hp.subset (List.mem_append_right _ hel)
  obtain ⟨q, hq, hq2⟩ := List.mem_map.1 h1
  have h3 : q.1 = p.1 := by rw [← hwf.2 q hq, hq2, hkey]
  have h4 := nodup_keys_unique hwf.1 hq hm h3
  rw [← h4, hq2]
  exact hel

theorem mem_kept {c : Cache α} (hwf : c.WF) {K D : List (CacheValue α)}
    (hp : (K ++ D).Perm (c.values.map Prod.snd)) {p : String × CacheValue α}
    (hm : p ∈ c.values) (hk : p.1 ∉ D.map CacheValue.key) : p.2 ∈ K := by
  have h1 : p.2 ∈ K ++ D := hp.symm.subset (List.mem_map.2 ⟨p, hm, rfl⟩)
  rcases List.mem_append.1 h1 with h | h
  · exact h
  · exact absurd (List.mem_map.2 ⟨p.2, h, hwf.2 p hm⟩) hk

theorem keys_perm {c : Cache α} (hwf : c.WF) {S : List (CacheValue α)}
    (hp : S.Perm (c.values.map Prod.snd)) :
    (S.map CacheValue.key).Perm (c.values.map Prod.fst) := by
  have h1 := List.Perm.map CacheValue.key hp
  have h2 : (c.values.map Prod.snd).map CacheValue.key = c.values.map Prod.fst := by
    rw [List.map_map]
    exact List.map_congr_left (fun p hp => hwf.2 p hp)
  rwa [h2] at h1

theorem length_kept_filter {c : Cache α} (hwf : c.WF) {K D : List (CacheValue α)}
    (hp : (K ++ D).Perm (c.values.map Prod.snd)) :
    (c.values.filter (fun p => decide (p.1 ∉ D.map CacheValue.key))).length = K.length := by
  have hk := keys_perm hwf hp
  have hnd : ((K ++ D).map CacheValue.key).Nodup := hk.nodup_iff.2 hwf.1
  rw [List.map_append] at hnd hk
  have hdis := (List.nodup_append.1 hnd).2.2
  have h1 : (c.values.filter (fun p => decide (p.1 ∉ D.map CacheValue.key))).length
      = ((c.values.map Prod.fst).filter
          (fun k => decide (k ∉ D.map CacheValue.key))).length := by
    rw [List.filter_map, List.length_map]
    rfl
  have h2 := (List.Perm.filter (fun k => decide (k ∉ D.map CacheValue.key)) hk).length_eq
  rw [h1, ← h2, List.filter_append, List.length_append]
  have h3 : (K.map CacheValue.key).filter (fun k => decide (k ∉ D.map CacheValue.key))
      = K.map CacheValue.key := by
    apply List.filter_eq_self.2
    intro a ha
    simpa using fun x hx hxa => hdis ha (List.mem_map.2 ⟨x, hx, hxa⟩)
  have h4 : (D.map CacheValue.key).filter (fun k => decide (k ∉ D.map CacheValue.key))
      = [] := by
    apply List.filter_eq_nil_iff.2
    intro a ha
    simpa using ha
  rw [h3, h4]
  simp

theorem mapIndex_after_evict (m : GoMap α) (Dk : List String) (x : String) :
    mapIndex ((m.filter (fun p => decide (p.1 ∉ Dk))).map
        (fun p => (p.1, { p.2 with freq := 1 }))) x
      = if x ∈ Dk then none
        else (mapIndex m x).map (fun e => { e with freq := 1 }) := by
  refine (mapIndex_map_snd _ (fun e => ({ e with freq := 1 } : CacheValue α)) x).trans ?_
  rw [mapIndex_filter m (fun k => decide (k ∉ Dk)) x]
  by_cases h : x ∈ Dk <;> simp [h]

theorem Has_eq_true_iff (c : Cache α) (x : String) :
    c.Has x = true ↔ ∃ e, mapIndex c.values x = some e := by
  unfold Has
  cases mapIndex c.values x <;> simp

theorem Has_eq_false_iff (c : Cache α) (x : String) :
    c.Has x = false ↔ mapIndex c.values x = none := by
  unfold Has
  cases mapIndex c.values x <;> simp

theorem wf_after_evict {c : Cache α} (hwf : c.WF) (Dk : List String) :
    WF (⟨c.UpperBound, c.LowerBound,
      (c.values.filter (fun p => decide (p.1 ∉ Dk))).map
        (fun p => (p.1, { p.2 with freq := 1 }))⟩ : Cache α) := by
  constructor
  · simp only [List.map_map]
    have h : (Prod.fst ∘ fun p : String × CacheValue α =>
        (p.1, ({ p.2 with freq := 1 } : CacheValue α))) = Prod.fst := by
      funext p
      rfl
    rw [h]
    exact List.Nodup.sublist (List.Sublist.map _ (List.filter_sublist _)) hwf.1
  · intro p hp
    obtain ⟨q, hq, rfl⟩ := List.mem_map.1 hp
    exact hwf.2 q (List.mem_of_mem_filter hq)

/-- The contract of one eviction pass with a non-negative count, in terms of
the public queries. -/
theorem Evict_spec (range : GoMap α) (c : Cache α) (count : Int)
    (hwf : c.WF) (hr : c.IsRange range) (h0 : 0 ≤ count) :
    ∃ c' : Cache α, Evict range c count = some (c', min c.Len count) ∧
      c'.UpperBound = c.UpperBound ∧ c'.LowerBound = c.LowerBound ∧
      c'.WF ∧
      c'.Len = c.Len - min c.Len count ∧
      (∀ x, c'.Has x = true → c.Has x = true) ∧
      (∀ x, c'.Has x = true → c'.GetFrequency x = 1) ∧
      (∀ x, c'.Has x = true → (c'.Get x).1 = (c.Get x).1) ∧
      (∀ k1 k2, c.Has k1 = true → c'.Has k1 = false → c'.Has k2 = true →
        c.GetFrequency k1 ≤ c.GetFrequency k2) := by
  obtain ⟨K, D, hp, hD, hle, hev⟩ := Evict_split range c count hr h0
  have hidx := mapIndex_after_evict c.values (D.map CacheValue.key)
  refine ⟨_, hev, rfl, rfl, wf_after_evict hwf _, ?_, ?_, ?_, ?_, ?_⟩
  · have h1 := length_kept_filter hwf hp
    have h2 : K.length + D.length = c.values.length := by
      rw [← List.length_append, hp.length_eq, List.length_map]
    simp only [Len, List.length_map, h1]
    omega
  · intro x hx
    rw [Has_eq_true_iff] at hx ⊢
    obtain ⟨e, he⟩ := hx
    rw [hidx] at he
    by_cases hxD : x ∈ D.map CacheValue.key
    · simp [hxD] at he
    · cases hm : mapIndex c.values x with
      | none => simp [hxD, hm] at he
      | some e0 => exact ⟨e0, rfl⟩
  · intro x hx
    rw [Has_eq_true_iff] at hx
    obtain ⟨e, he⟩ := hx
    unfold GetFrequency
    simp only [he]
    rw [hidx] at he
    by_cases hxD : x ∈ D.map CacheValue.key
    · simp [hxD] at he
    · cases hm : mapIndex c.values x with
      | none => simp [hxD, hm] at he
      | some e0 =>
        simp only [hxD, hm, if_false, Option.map_some', Option.some.injEq] at he
        rw [← he]
  · intro x hx
    rw [Has_eq_true_iff] at hx
    obtain ⟨e, he⟩ := hx
    unfold Get
    simp only [he]
    rw [hidx] at he
    by_cases hxD : x ∈ D.map CacheValue.key
    · simp [hxD] at he
    · cases hm : mapIndex c.values x with
      | none => simp [hxD, hm] at he
      | some e0 =>
        simp only [hxD, hm, if_false, Option.map_some', Option.some.injEq] at he
        rw [← he]
  · intro k1 k2 h1 h1' h2
    rw [Has_eq_true_iff] at h1 h2
    rw [Has_eq_false_iff] at h1'
    obtain ⟨e1, he1⟩ := h1
    obtain ⟨e2', he2'⟩ := h2
    rw [hidx] at h1' he2'
    have hk2 : k2 ∉ D.map CacheValue.key := by
      intro h
      simp [h] at he2'
    have hk1 : k1 ∈ D.map CacheValue.key := by
      by_contra h
      simp [h, he1] at h1'
    cases hm : mapIndex c.values k2 with
    | none => simp [hk2, hm] at he2'
    | some e2 =>
      have hb := mem_deleted hwf hp (mapIndex_mem he1) hk1
      have ha := mem_kept hwf hp (mapIndex_mem hm) hk2
      simp only [GetFrequency, he1, hm]
      exact hle _ ha _ hb

/-- The part of the contract that needs no well-formedness of the map. -/
theorem Evict_basic (range : GoMap α) (c : Cache α) (count : Int)
    (hr : c.IsRange range) (h0 : 0 ≤ count) :
    ∃ c' : Cache α, Evict range c count = some (c', min c.Len count) ∧
      c'.UpperBound = c.UpperBound ∧ c'.LowerBound = c.LowerBound ∧
      (∀ x, c'.Has x = true → c.Has x = true) ∧
      ∀ x, (c'.Has x = true → c'.GetFrequency x = 1) ∧
        (c'.Has x = false → c'.GetFrequency x = 0) := by
  obtain ⟨K, D, _, _, _, hev⟩ := Evict_split range c count hr h0
  have hidx := mapIndex_after_evict c.values (D.map CacheValue.key)
  refine ⟨_, hev, rfl, rfl, ?_, fun x => ⟨?_, ?_⟩⟩
  · intro x hx
    rw [Has_eq_true_iff] at hx ⊢
    obtain ⟨e, he⟩ := hx
    rw [hidx] at he
    by_cases hxD : x ∈ D.map CacheValue.key
    · simp [hxD] at he
    · cases hm : mapIndex c.values x with
      | none => simp [hxD, hm] at he
      | some e0 => exact ⟨e0, rfl⟩
  · intro hx
    rw [Has_eq_true_iff] at hx
    obtain ⟨e, he⟩ := hx
    unfold GetFrequency
    simp only [he]
    rw [hidx] at he
    by_cases hxD : x ∈ D.map CacheValue.key
    · simp [hxD] at he
    · cases hm : mapIndex c.values x with
      | none => simp [hxD, hm] at he
      | some e0 =>
        simp only [hxD, hm, if_false, Option.map_some', Option.some.injEq] at he
        rw [← he]
  · intro hx
    rw [Has_eq_false_iff] at hx
    unfold GetFrequency
    simp only [hx]

/-- A pass that returns was called with a non-negative count. -/
theorem Evict_some_nonneg (range : GoMap α) (c : Cache α) (count : Int)
    {r : Cache α × Int} (h : Evict range c count = some r) : 0 ≤ count := by
  unfold Evict at h
  by_contra hneg
  rw [if_neg] at h
  · exact Option.noConfusion h
  · omega

/-! ## `Set`, `Get` and the reachable states -/

theorem Set_present (range : GoMap α) (c : Cache α) (key : String) (value : Option α)
    (h : c.Has key = true) :
    c.Set range key value
      = some ⟨c.UpperBound, c.LowerBound,
          mapModify c.values key (fun e => { e with value := value })⟩ := by
  obtain ⟨e, he⟩ := (Has_eq_true_iff c key).1 h
  unfold Set
  simp only [he]

theorem Set_absent_plain (range : GoMap α) (c : Cache α) (key : String) (value : Option α)
    (h : c.Has key = false)
    (hb : ¬ (c.Len ≥ c.UpperBound ∧ c.UpperBound ≠ 0 ∧ c.LowerBound ≠ 0)) :
    c.Set range key value
      = some ⟨c.UpperBound, c.LowerBound, c.values ++ [(key, ⟨value, 1, key⟩)]⟩ := by
  have he := (Has_eq_false_iff c key).1 h
  unfold Len at hb
  unfold Set
  simp only [he, hb, if_false, mapAssign]

theorem Set_absent_evict (range : GoMap α) (c : Cache α) (key : String) (value : Option α)
    (h : c.Has key = false)
    (hb : c.Len ≥ c.UpperBound ∧ c.UpperBound ≠ 0 ∧ c.LowerBound ≠ 0)
    {c1 : Cache α} {n : Int} (hev : c.Evict range (c.UpperBound - c.LowerBound) = some (c1, n))
    (h1 : c1.Has key = false) :
    c.Set range key value
      = some ⟨c1.UpperBound, c1.LowerBound, c1.values ++ [(key, ⟨value, 1, key⟩)]⟩ := by
  have he := (Has_eq_false_iff c key).1 h
  have he1 := (Has_eq_false_iff c1 key).1 h1
  unfold Len at hb
  unfold Set
  simp only [he, hev, mapAssign, he1]
  rw [if_pos hb]

theorem mapIndex_insert {m : GoMap α} {key : String} (h : mapIndex m key = none)
    (e : CacheValue α) (x : String) :
    mapIndex (m ++ [(key, e)]) x = if x = key then some e else mapIndex m x := by
  rw [mapIndex_append_single]
  by_cases hx : x = key
  · subst hx
    simp [h]
  · have hx' : ¬ key = x := fun h => hx h.symm
    cases hm : mapIndex m x <;> simp [hx, hx']

theorem wf_insert {c : Cache α} (hwf : c.WF) {key : String} (h : c.Has key = false)
    (value : Option α) :
    WF (⟨c.UpperBound, c.LowerBound, c.values ++ [(key, ⟨value, 1, key⟩)]⟩ : Cache α) := by
  have hn := (mapIndex_eq_none_iff c.values key).1 ((Has_eq_false_iff c key).1 h)
  constructor
  · simp only [List.map_append, List.map_cons, List.map_nil]
    apply List.Nodup.append hwf.1 (List.nodup_singleton _)
    intro a ha hb
    rw [List.mem_singleton] at hb
    exact hn (hb ▸ ha)
  · intro p hp
    rcases List.mem_append.1 hp with h1 | h1
    · exact hwf.2 p h1
    · rw [List.mem_singleton] at h1
      rw [h1]

theorem wf_modify {c : Cache α} (hwf : c.WF) (key : String)
    (f : CacheValue α → CacheValue α) (hf : ∀ e, (f e).key = e.key) :
    WF (⟨c.UpperBound, c.LowerBound, mapModify c.values key f⟩ : Cache α) := by
  constructor
  · simp only [mapModify, List.map_map]
    have h : (Prod.fst ∘ fun p : String × CacheValue α =>
        (p.1, if p.1 = key then f p.2 else p.2)) = Prod.fst := by
      funext p
      rfl
    rw [h]
    exact hwf.1
  · intro p hp
    obtain ⟨q, hq, rfl⟩ := List.mem_map.1 hp
    by_cases hk : q.1 = key
    · simp only [hk, if_true]
      rw [hf, hwf.2 q hq, hk]
    · simp only [hk, if_false]
      exact hwf.2 q hq

theorem Has_insert {c : Cache α} {key : String} (h : c.Has key = false)
    (u l : Int) (e : CacheValue α) (x : String) :
    Has (⟨u, l, c.values ++ [(key, e)]⟩ : Cache α) x = true ↔ x = key ∨ c.Has x = true := by
  have hi := mapIndex_insert ((Has_eq_false_iff c key).1 h) e x
  rw [Has_eq_true_iff, Has_eq_true_iff]
  simp only [hi]
  by_cases hx : x = key
  · simp [hx]
  · simp [hx]

theorem GetFrequency_insert {c : Cache α} {key : String} (h : c.Has key = false)
    (u l : Int) (e : CacheValue α) (x : String) :
    GetFrequency (⟨u, l, c.values ++ [(key, e)]⟩ : Cache α) x
      = if x = key then e.freq else c.GetFrequency x := by
  have hi := mapIndex_insert ((Has_eq_false_iff c key).1 h) e x
  unfold GetFrequency
  simp only [hi]
  by_cases hx : x = key
  · simp [hx]
  · simp [hx]

theorem Get_insert {c : Cache α} {key : String} (h : c.Has key = false)
    (u l : Int) (e : CacheValue α) (x : String) :
    (Get (⟨u, l, c.values ++ [(key, e)]⟩ : Cache α) x).1
      = if x = key then e.value else (c.Get x).1 := by
  have hi := mapIndex_insert ((Has_eq_false_iff c key).1 h) e x
  unfold Get
  simp only [hi]
  by_cases hx : x = key
  · simp [hx]
  · simp only [hx, if_false]
    cases mapIndex c.values x <;> rfl

theorem Len_insert (c : Cache α) (u l : Int) (p : String × CacheValue α) :
    Len (⟨u, l, c.values ++ [p]⟩ : Cache α) = c.Len + 1 := by
  simp [Len]

/-- The three ways in which a call of `Set` returns. -/
theorem Set_cases (range : GoMap α) (c : Cache α) (key : String) (value : Option α)
    {c' : Cache α} (h : c.Set range key value = some c') :
    (c.Has key = true ∧
      c' = ⟨c.UpperBound, c.LowerBound,
        mapModify c.values key (fun e => { e with value := value })⟩) ∨
    (c.Has key = false ∧ ¬ (c.Len ≥ c.UpperBound ∧ c.UpperBound ≠ 0 ∧ c.LowerBound ≠ 0) ∧
      c' = ⟨c.UpperBound, c.LowerBound, c.values ++ [(key, ⟨value, 1, key⟩)]⟩) ∨
    (c.Has key = false ∧ (c.Len ≥ c.UpperBound ∧ c.UpperBound ≠ 0 ∧ c.LowerBound ≠ 0) ∧
      0 ≤ c.UpperBound - c.LowerBound ∧
      ∃ (c1 : Cache α) (n : Int),
        c.Evict range (c.UpperBound - c.LowerBound) = some (c1, n) ∧
        c' = ⟨c1.UpperBound, c1.LowerBound, mapAssign c1.values key ⟨value, 1, key⟩⟩) := by
  cases hk : c.Has key with
  | true =>
    left
    rw [Set_present range c key value hk] at h
    exact ⟨rfl, (Option.some.inj h).symm⟩
  | false =>
    right
    by_cases hb : c.Len ≥ c.UpperBound ∧ c.UpperBound ≠ 0 ∧ c.LowerBound ≠ 0
    · right
      have he := (Has_eq_false_iff c key).1 hk
      have hb' := hb
      unfold Len at hb'
      unfold Set at h
      simp only [he] at h
      rw [if_pos hb'] at h
      cases hev : c.Evict range (c.UpperBound - c.LowerBound) with
      | none => simp [hev] at h
      | some r =>
        obtain ⟨c1, n⟩ := r
        simp only [hev] at h
        exact ⟨rfl, hb, Evict_some_nonneg _ _ _ hev, c1, n, rfl, (Option.some.inj h).symm⟩
    · left
      rw [Set_absent_plain range c key value hk hb] at h
      exact ⟨rfl, hb, (Option.some.inj h).symm⟩

theorem mapAssign_absent {m : GoMap α} {key : String} (h : mapIndex m key = none)
    (e : CacheValue α) : mapAssign m key e = m ++ [(key, e)] := by
  unfold mapAssign
  simp only [h]

/-- What `Set` does on a new key when it runs the eviction pass. -/
theorem Set_evict_spec (range : GoMap α) (c : Cache α) (key : String) (value : Option α)
    (hr : c.IsRange range) (h : c.Has key = false)
    (hb : c.Len ≥ c.UpperBound ∧ c.UpperBound ≠ 0 ∧ c.LowerBound ≠ 0)
    (h0 : 0 ≤ c.UpperBound - c.LowerBound) :
    ∃ c1 : Cache α,
      c.Evict range (c.UpperBound - c.LowerBound)
        = some (c1, min c.Len (c.UpperBound - c.LowerBound)) ∧
      c1.Has key = false ∧
      c.Set range key value
        = some ⟨c1.UpperBound, c1.LowerBound, c1.values ++ [(key, ⟨value, 1, key⟩)]⟩ := by
  obtain ⟨c1, hev, _, _, hsub, _⟩ := Evict_basic range c _ hr h0
  have h1 : c1.Has key = false := by
    cases hh : c1.Has key with
    | false => rfl
    | true =>
      have := hsub key hh
      rw [h] at this
      exact Bool.noConfusion this
  exact ⟨c1, hev, h1, Set_absent_evict range c key value h hb hev h1⟩

/-- One returning call keeps the map well formed and the bounds unchanged. -/
theorem step_wf {c c' : Cache α} (op : Op α) (hwf : c.WF) (hv : op.Valid c)
    (h : op.apply c = some c') :
    c'.WF ∧ c'.UpperBound = c.UpperBound ∧ c'.LowerBound = c.LowerBound := by
  cases op with
  | Has key => cases Option.some.inj h; exact ⟨hwf, rfl, rfl⟩
  | Len => cases Option.some.inj h; exact ⟨hwf, rfl, rfl⟩
  | GetFrequency key => cases Option.some.inj h; exact ⟨hwf, rfl, rfl⟩
  | Keys range => cases Option.some.inj h; exact ⟨hwf, rfl, rfl⟩
  | Get key =>
    have h2 : (c.Get key).2 = c' := Option.some.inj h
    rw [← h2]
    unfold Get
    cases mapIndex c.values key with
    | none => exact ⟨hwf, rfl, rfl⟩
    | some e => exact ⟨wf_modify hwf key increment (fun _ => rfl), rfl, rfl⟩
  | Evict range count =>
    have hr : c.IsRange range := hv
    simp only [Op.apply] at h
    cases hev : c.Evict range count with
    | none => simp [hev] at h
    | some r =>
      obtain ⟨c1, hev1, hu, hl, hwf1, _⟩ :=
        Evict_spec range c count hwf hr (Evict_some_nonneg _ _ _ hev)
      rw [hev1] at h
      cases Option.some.inj h
      exact ⟨hwf1, hu, hl⟩
  | Set range key value =>
    have hr : c.IsRange range := hv
    have h' : c.Set range key value = some c' := h
    rcases Set_cases range c key value h' with ⟨_, rfl⟩ | ⟨hk, _, rfl⟩ | ⟨hk, hb, h0, _⟩
    · exact ⟨wf_modify hwf key _ (fun _ => rfl), rfl, rfl⟩
    · exact ⟨wf_insert hwf hk value, rfl, rfl⟩
    · obtain ⟨c1, hev1, hu, hl, hwf1, _⟩ := Evict_spec range c _ hwf hr h0
      obtain ⟨c2, hev2, hk2, hset⟩ := Set_evict_spec range c key value hr hk hb h0
      rw [hev1] at hev2
      cases (Prod.mk.inj (Option.some.inj hev2)).1
      rw [hset] at h'
      cases Option.some.inj h'
      exact ⟨wf_insert hwf1 hk2 value, hu, hl⟩

end Cache

/-- Every state reached from a well-formed one is well formed and has the
bounds of the initial state. -/
theorem Reachable.wf {α : Type} {init c : Cache α} (hi : init.WF) (h : Reachable init c) :
    c.WF ∧ c.UpperBound = init.UpperBound ∧ c.LowerBound = init.LowerBound := by
  induction h with
  | start => exact ⟨hi, rfl, rfl⟩
  | step op _ hv happ ih =>
    obtain ⟨hwf, hu, hl⟩ := Cache.step_wf op ih.1 hv happ
    exact ⟨hwf, hu.trans ih.2.1, hl.trans ih.2.2⟩

namespace Cache

variable {α : Type}

theorem Has_modify (c : Cache α) (u l : Int) (key : String)
    (f : CacheValue α → CacheValue α) (x : String) :
    Has (⟨u, l, mapModify c.values key f⟩ : Cache α) x = c.Has x := by
  unfold Has
  simp only [mapIndex_modify]
  by_cases hx : x = key
  · simp only [hx, if_true]
    cases mapIndex c.values key <;> rfl
  · simp only [hx, if_false]

theorem Len_modify (c : Cache α) (u l : Int) (key : String)
    (f : CacheValue α → CacheValue α) :
    Len (⟨u, l, mapModify c.values key f⟩ : Cache α) = c.Len := by
  simp [Len, length_mapModify]

/-- The population after `Set`, in a state whose bounds are `u > l > 0` and
whose population does not exceed `u`. -/
theorem Set_watermark (range : GoMap α) (c : Cache α) (key : String) (value : Option α)
    (hwf : c.WF) (hr : c.IsRange range)
    (hl : 0 < c.LowerBound) (hu : c.LowerBound < c.UpperBound) (hlen : c.Len ≤ c.UpperBound) :
    ∃ c' : Cache α, c.Set range key value = some c' ∧ c'.Len ≤ c.UpperBound ∧
      ((c.Has key = false ∧ c.Len ≥ c.UpperBound ∧ c.UpperBound ≠ 0 ∧ c.LowerBound ≠ 0) →
        c'.Len ≤ c.LowerBound + 1) := by
  cases hk : c.Has key with
  | true =>
    refine ⟨_, Set_present range c key value hk, ?_, ?_⟩
    · rw [Len_modify]
      exact hlen
    · intro h
      exact Bool.noConfusion h.1
  | false =>
    by_cases hb : c.Len ≥ c.UpperBound ∧ c.UpperBound ≠ 0 ∧ c.LowerBound ≠ 0
    · have h0 : 0 ≤ c.UpperBound - c.LowerBound := by omega
      obtain ⟨c1, hev1, _, _, _, hlen1, _⟩ := Evict_spec range c _ hwf hr h0
      obtain ⟨c2, hev2, _, hset⟩ := Set_evict_spec range c key value hr hk hb h0
      rw [hev1] at hev2
      cases (Prod.mk.inj (Option.some.inj hev2)).1
      have hb1 := hb.1
      refine ⟨_, hset, ?_, fun _ => ?_⟩
      · rw [Len_insert, hlen1]
        omega
      · rw [Len_insert, hlen1]
        omega
    · refine ⟨_, Set_absent_plain range c key value hk hb, ?_, fun h => absurd h.2 hb⟩
      rw [Len_insert]
      have : ¬ c.Len ≥ c.UpperBound := fun h => hb ⟨h, by omega, by omega⟩
      omega

/-- One returning call keeps the population at or below the upper bound. -/
theorem step_len_le {c c' : Cache α} (op : Op α) (hwf : c.WF)
    (hl : 0 < c.LowerBound) (hu : c.LowerBound < c.UpperBound) (hlen : c.Len ≤ c.UpperBound)
    (hv : op.Valid c) (h : op.apply c = some c') : c'.Len ≤ c.UpperBound := by
  cases op with
  | Has key => cases Option.some.inj h; exact hlen
  | Len => cases Option.some.inj h; exact hlen
  | GetFrequency key => cases Option.some.inj h; exact hlen
  | Keys range => cases Option.some.inj h; exact hlen
  | Get key =>
    have h2 : (c.Get key).2 = c' := Option.some.inj h
    rw [← h2]
    unfold Get
    cases mapIndex c.values key with
    | none => exact hlen
    | some e =>
      show Len (⟨c.UpperBound, c.LowerBound, mapModify c.values key increment⟩ : Cache α) ≤ _
      rw [Len_modify]
      exact hlen
  | Evict range count =>
    have hr : c.IsRange range := hv
    simp only [Op.apply] at h
    cases hev : c.Evict range count with
    | none => simp [hev] at h
    | some r =>
      have h0 := Evict_some_nonneg _ _ _ hev
      obtain ⟨c1, hev1, _, _, _, hlen1, _⟩ := Evict_spec range c count hwf hr h0
      rw [hev1] at h
      cases Option.some.inj h
      rw [hlen1]
      have : 0 ≤ c.Len := by unfold Len; omega
      omega
  | Set range key value =>
    have hr : c.IsRange range := hv
    obtain ⟨c2, hset, hle, _⟩ := Set_watermark range c key value hwf hr hl hu hlen
    have h' : c.Set range key value = some c' := h
    rw [hset] at h'
    cases Option.some.inj h'
    exact hle

theorem scenario_wf : scenario.WF := by
  unfold WF scenario
  decide

theorem scenario_isRange : scenario.IsRange scenarioRange :=
  List.Perm.swap _ _ _

end Cache

/-- With bounds `u > l > 0`, the population never exceeds `u` once it did not
exceed it initially. -/
theorem Reachable.len_le {α : Type} {init c : Cache α} (hi : init.WF)
    (hl : 0 < init.LowerBound) (hu : init.LowerBound < init.UpperBound)
    (h0 : init.Len ≤ init.UpperBound) (h : Reachable init c) :
    c.Len ≤ init.UpperBound := by
  induction h with
  | start => exact h0
  | step op hreach hv happ ih =>
    obtain ⟨hwf, hub, hlb⟩ := Reachable.wf hi hreach
    have := Cache.step_len_le op hwf (by rw [hlb]; exact hl) (by rw [hlb, hub]; exact hu)
      (by rw [hub]; exact ih) hv happ
    rwa [hub] at this

theorem oneKey_reachable : Reachable ((New : Cache Nat).setBounds 2 1) oneKey :=
  Reachable.step (Op.Set [] "a" (some 1)) Reachable.start (List.Perm.refl _) (by decide)

theorem twoKeys_reachable : Reachable ((New : Cache Nat).setBounds 2 1) twoKeys :=
  Reachable.step (Op.Set oneKey.values "b" (some 2)) oneKey_reachable (List.Perm.refl _)
    (by decide)

/-! ## The claims -/

/-- C1 (LFU selection).  For every cache state, every order `range` in which the
index is iterated and every count `k ≥ 0` (in particular `0 ≤ k ≤ Len()`),
`Evict(k)` returns, and no key it removed had a pre-call frequency strictly
greater than the pre-call frequency of a key it retained. -/
theorem C1_evict_lfu_selection {α : Type} (range : GoMap α) (c : Cache α) (k : Int)
    (hwf : c.WF) (hr : c.IsRange range) (h0 : 0 ≤ k) :
    ∃ (c' : Cache α) (n : Int), c.Evict range k = some (c', n) ∧
      ∀ removed retained : String,
        c.Has removed = true → c'.Has removed = false →
        c.Has retained = true → c'.Has retained = true →
        c.GetFrequency removed ≤ c.GetFrequency retained := by
  obtain ⟨c', hev, _, _, _, _, _, _, _, hlfu⟩ := Cache.Evict_spec range c k hwf hr h0
  exact ⟨c', _, hev, fun k1 k2 h1 h2 _ h4 => hlfu k1 k2 h1 h2 h4⟩

/-- Witness of C1: the bounded-eviction scenario with `k = 2`. -/
theorem C1_evict_lfu_selection_witness :
    scenario.WF ∧ scenario.IsRange scenarioRange ∧ (0 : Int) ≤ 2 ∧
    ∃ (c' : Cache Nat) (n : Int), scenario.Evict scenarioRange 2 = some (c', n) ∧
      ∀ removed retained : String,
        scenario.Has removed = true → c'.Has removed = false →
        scenario.Has retained = true → c'.Has retained = true →
        scenario.GetFrequency removed ≤ scenario.GetFrequency retained :=
  ⟨Cache.scenario_wf, Cache.scenario_isRange, by decide,
    C1_evict_lfu_selection scenarioRange scenario 2 Cache.scenario_wf Cache.scenario_isRange
      (by decide)⟩

/-- C2 (clamping and return value).  For every cache state with population `n`
and every count `k ≥ 0`, `Evict(k)` returns `min(k, n)`, the population afterwards
is `n - min(k, n)`, every key present afterwards was present before, and for
`k > n` the call returns `n` and leaves the cache empty. -/
theorem C2_evict_clamps {α : Type} (range : GoMap α) (c : Cache α) (k : Int)
    (hwf : c.WF) (hr : c.IsRange range) (h0 : 0 ≤ k) :
    ∃ c' : Cache α, c.Evict range k = some (c', min k c.Len) ∧
      c'.Len = c.Len - min k c.Len ∧
      (∀ key, c'.Has key = true → c.Has key = true) ∧
      (c.Len < k → min k c.Len = c.Len ∧ c'.Len = 0 ∧ ∀ key, c'.Has key = false) := by
  obtain ⟨c', hev, _, _, _, hlen, hsub, _, _, _⟩ := Cache.Evict_spec range c k hwf hr h0
  rw [min_comm] at hev hlen
  refine ⟨c', hev, hlen, hsub, fun hlt => ?_⟩
  have hmin : min k c.Len = c.Len := min_eq_right (le_of_lt hlt)
  have h0len : c'.Len = 0 := by rw [hlen, hmin]; omega
  refine ⟨hmin, h0len, fun key => ?_⟩
  have hnil : c'.values = [] := by
    apply List.eq_nil_of_length_eq_zero
    unfold Cache.Len at h0len
    omega
  simp [Cache.Has, hnil, mapIndex]

/-- Witness of C2: the bounded-eviction scenario with `k = 100`. -/
theorem C2_evict_clamps_witness :
    scenario.WF ∧ scenario.IsRange scenarioRange ∧ (0 : Int) ≤ 100 ∧
    ∃ c' : Cache Nat, scenario.Evict scenarioRange 100 = some (c', min 100 scenario.Len) ∧
      c'.Len = scenario.Len - min 100 scenario.Len ∧
      (∀ key, c'.Has key = true → scenario.Has key = true) ∧
      (scenario.Len < 100 →
        min 100 scenario.Len = scenario.Len ∧ c'.Len = 0 ∧ ∀ key, c'.Has key = false) :=
  ⟨Cache.scenario_wf, Cache.scenario_isRange, by decide,
    C2_evict_clamps scenarioRange scenario 100 Cache.scenario_wf Cache.scenario_isRange
      (by decide)⟩

/-- C3 (post-evict reset).  For every cache state, every order `range` and every
count `k ≥ 0`, `Evict(k)` returns, and immediately afterwards `GetFrequency(key)`
is 1 for every key still present and 0 for every key not present, hence 0 or 1
for all keys. -/
theorem C3_evict_resets_frequencies {α : Type} (range : GoMap α) (c : Cache α) (k : Int)
    (hr : c.IsRange range) (h0 : 0 ≤ k) :
    ∃ (c' : Cache α) (n : Int), c.Evict range k = some (c', n) ∧
      ∀ key, (c'.Has key = true → c'.GetFrequency key = 1) ∧
        (c'.Has key = false → c'.GetFrequency key = 0) ∧
        (c'.GetFrequency key = 0 ∨ c'.GetFrequency key = 1) := by
  obtain ⟨c', hev, _, _, _, hf⟩ := Cache.Evict_basic range c k hr h0
  refine ⟨c', _, hev, fun key => ⟨(hf key).1, (hf key).2, ?_⟩⟩
  cases h : c'.Has key with
  | true => exact Or.inr ((hf key).1 h)
  | false => exact Or.inl ((hf key).2 h)

/-- Witness of C3: the bounded-eviction scenario with `k = 1`. -/
theorem C3_evict_resets_frequencies_witness :
    scenario.IsRange scenarioRange ∧ (0 : Int) ≤ 1 ∧
    ∃ (c' : Cache Nat) (n : Int), scenario.Evict scenarioRange 1 = some (c', n) ∧
      ∀ key, (c'.Has key = true → c'.GetFrequency key = 1) ∧
        (c'.Has key = false → c'.GetFrequency key = 0) ∧
        (c'.GetFrequency key = 0 ∨ c'.GetFrequency key = 1) :=
  ⟨Cache.scenario_isRange, by decide,
    C3_evict_resets_frequencies scenarioRange scenario 1 Cache.scenario_isRange (by decide)⟩

/-- C4 (bounded-mode insert evicts first).  With `UpperBound = u > LowerBound =
l > 0`, population `n ≥ u` and `key` not present, `Set(key, v)` first runs an
eviction pass that removes exactly `u - l` entries, none of them more frequently
used than a survivor, and then inserts `key`: afterwards `Len() = n - (u - l) + 1`,
the keys present are the survivors and `key`, `key` holds `v`, and every entry
has frequency 1. -/
theorem C4_set_bounded_evicts_first {α : Type} (range : GoMap α) (c : Cache α)
    (key : String) (v : Option α) (hwf : c.WF) (hr : c.IsRange range)
    (hl : 0 < c.LowerBound) (hu : c.LowerBound < c.UpperBound)
    (hn : c.UpperBound ≤ c.Len) (hk : c.Has key = false) :
    ∃ c1 c2 : Cache α,
      c.Evict range (c.UpperBound - c.LowerBound)
        = some (c1, c.UpperBound - c.LowerBound) ∧
      c1.Len = c.Len - (c.UpperBound - c.LowerBound) ∧
      (∀ x, c1.Has x = true → c.Has x = true) ∧
      (∀ removed retained : String,
        c.Has removed = true → c1.Has removed = false → c1.Has retained = true →
        c.GetFrequency removed ≤ c.GetFrequency retained) ∧
      c.Set range key v = some c2 ∧
      (∀ x, c2.Has x = true ↔ x = key ∨ c1.Has x = true) ∧
      c2.Len = c.Len - (c.UpperBound - c.LowerBound) + 1 ∧
      c2.Has key = true ∧ (c2.Get key).1 = v ∧
      (∀ x, c2.Has x = true → c2.GetFrequency x = 1) := by
  have h0 : 0 ≤ c.UpperBound - c.LowerBound := by omega
  have hb : c.Len ≥ c.UpperBound ∧ c.UpperBound ≠ 0 ∧ c.LowerBound ≠ 0 :=
    ⟨hn, by omega, by omega⟩
  have hmin : min c.Len (c.UpperBound - c.LowerBound) = c.UpperBound - c.LowerBound :=
    min_eq_right (by omega)
  obtain ⟨c1, hev1, _, _, _, hlen1, hsub, hfreq, _, hlfu⟩ :=
    Cache.Evict_spec range c _ hwf hr h0
  obtain ⟨c1', hev2, hk1, hset⟩ := Cache.Set_evict_spec range c key v hr hk hb h0
  rw [hev1] at hev2
  cases (Prod.mk.inj (Option.some.inj hev2)).1
  rw [hmin] at hev1 hlen1
  refine ⟨c1, _, hev1, hlen1, hsub, hlfu, hset, ?_, ?_, ?_, ?_, ?_⟩
  · exact fun x => Cache.Has_insert hk1 _ _ _ x
  · rw [Cache.Len_insert, hlen1]
  · exact (Cache.Has_insert hk1 _ _ _ key).2 (Or.inl rfl)
  · rw [Cache.Get_insert hk1]
    simp
  · intro x hx
    rw [Cache.GetFrequency_insert hk1]
    by_cases hxk : x = key
    · simp [hxk]
    · simp only [hxk, if_false]
      rcases (Cache.Has_insert hk1 _ _ _ x).1 hx with h | h
      · exact absurd h hxk
      · exact hfreq x h

/-- Witness of C4: the bounded-eviction scenario, `Set("e", 5)`. -/
theorem C4_set_bounded_evicts_first_witness :
    scenario.WF ∧ scenario.IsRange scenarioRange ∧
    0 < scenario.LowerBound ∧ scenario.LowerBound < scenario.UpperBound ∧
    scenario.UpperBound ≤ scenario.Len ∧ scenario.Has "e" = false ∧
    ∃ c1 c2 : Cache Nat,
      scenario.Evict scenarioRange (scenario.UpperBound - scenario.LowerBound)
        = some (c1, scenario.UpperBound - scenario.LowerBound) ∧
      c1.Len = scenario.Len - (scenario.UpperBound - scenario.LowerBound) ∧
      (∀ x, c1.Has x = true → scenario.Has x = true) ∧
      (∀ removed retained : String,
        scenario.Has removed = true → c1.Has removed = false → c1.Has retained = true →
        scenario.GetFrequency removed ≤ scenario.GetFrequency retained) ∧
      scenario.Set scenarioRange "e" (some 5) = some c2 ∧
      (∀ x, c2.Has x = true ↔ x = "e" ∨ c1.Has x = true) ∧
      c2.Len = scenario.Len - (scenario.UpperBound - scenario.LowerBound) + 1 ∧
      c2.Has "e" = true ∧ (c2.Get "e").1 = some 5 ∧
      (∀ x, c2.Has x = true → c2.GetFrequency x = 1) :=
  ⟨Cache.scenario_wf, Cache.scenario_isRange, by decide, by decide, by decide, by decide,
    C4_set_bounded_evicts_first scenarioRange scenario "e" (some 5) Cache.scenario_wf
      Cache.scenario_isRange (by decide) (by decide) (by decide) (by decide)⟩

/-- C5 (watermark invariant).  Take a cache created by `New()` whose bounds are
set to `u > l > 0` before any insertion and not changed afterwards.  In every
state reached by a sequence of public calls that return (`Evict` returns exactly
when its count is non-negative), every `Set` returns with `Len() ≤ u`, and a
`Set` that ran the eviction pass returns with `Len() ≤ l + 1`. -/
theorem C5_watermark_invariant {α : Type} (u l : Int) (hl : 0 < l) (hu : l < u)
    (c : Cache α) (hreach : Reachable ((New : Cache α).setBounds u l) c)
    (range : GoMap α) (key : String) (v : Option α) (hr : c.IsRange range) :
    ∃ c' : Cache α, c.Set range key v = some c' ∧ c'.Len ≤ u ∧
      ((c.Has key = false ∧ c.Len ≥ c.UpperBound ∧ c.UpperBound ≠ 0 ∧ c.LowerBound ≠ 0) →
        c'.Len ≤ l + 1) := by
  have hi : Cache.WF ((New : Cache α).setBounds u l) := by
    constructor
    · exact List.nodup_nil
    · intro p hp
      cases hp
  obtain ⟨hwf, hub, hlb⟩ := Reachable.wf hi hreach
  have hub' : c.UpperBound = u := hub
  have hlb' : c.LowerBound = l := hlb
  have hlen : c.Len ≤ u :=
    Reachable.len_le hi hl hu (le_of_lt (lt_trans hl hu)) hreach
  obtain ⟨c', hset, h1, h2⟩ := Cache.Set_watermark range c key v hwf hr
    (by rw [hlb']; exact hl) (by rw [hlb', hub']; exact hu) (by rw [hub']; exact hlen)
  refine ⟨c', hset, ?_, fun h => ?_⟩
  · rwa [hub'] at h1
  · have h3 := h2 h
    rwa [hlb'] at h3

/-- Witness of C5: bounds 2 and 1, after `Set("a")` and `Set("b")`, then
`Set("c")`. -/
theorem C5_watermark_invariant_witness :
    (0 : Int) < 1 ∧ (1 : Int) < 2 ∧
    Reachable ((New : Cache Nat).setBounds 2 1) twoKeys ∧
    twoKeys.IsRange twoKeys.values ∧
    ∃ c' : Cache Nat, twoKeys.Set twoKeys.values "c" (some 3) = some c' ∧ c'.Len ≤ 2 ∧
      ((twoKeys.Has "c" = false ∧ twoKeys.Len ≥ twoKeys.UpperBound ∧
          twoKeys.UpperBound ≠ 0 ∧ twoKeys.LowerBound ≠ 0) →
        c'.Len ≤ 1 + 1) :=
  ⟨by decide, by decide, twoKeys_reachable, List.Perm.refl _,
    C5_watermark_invariant 2 1 (by decide) (by decide) twoKeys twoKeys_reachable
      twoKeys.values "c" (some 3) (List.Perm.refl _)⟩

/-- C6 (overwrite preserves frequency).  For every cache state, whatever its
bounds and population, and every key already present, `Set(key, v)` only writes
`v` into the entry stored under `key`: the key then holds `v` with its frequency
unchanged, no eviction pass runs, and `Len()`, the bounds, the set of keys,
every frequency and every other entry are unchanged. -/
theorem C6_set_overwrite_preserves_freq {α : Type} (range : GoMap α) (c : Cache α)
    (key : String) (v : Option α) (hk : c.Has key = true) :
    ∃ c' : Cache α, c.Set range key v = some c' ∧
      c'.values = mapModify c.values key (fun e => { e with value := v }) ∧
      (c'.Get key).1 = v ∧
      c'.GetFrequency key = c.GetFrequency key ∧
      c'.Len = c.Len ∧ c'.UpperBound = c.UpperBound ∧ c'.LowerBound = c.LowerBound ∧
      (∀ x, c'.Has x = c.Has x) ∧
      (∀ x, c'.GetFrequency x = c.GetFrequency x) ∧
      (∀ x, x ≠ key → mapIndex c'.values x = mapIndex c.values x) := by
  obtain ⟨e, he⟩ := (Cache.Has_eq_true_iff c key).1 hk
  have hfreq : ∀ x, Cache.GetFrequency (⟨c.UpperBound, c.LowerBound,
      mapModify c.values key (fun e => { e with value := v })⟩ : Cache α) x
        = c.GetFrequency x := by
    intro x
    unfold Cache.GetFrequency
    simp only [mapIndex_modify]
    by_cases hx : x = key
    · simp only [hx, if_true]
      cases mapIndex c.values key <;> rfl
    · simp only [hx, if_false]
  refine ⟨_, Cache.Set_present range c key v hk, rfl, ?_, hfreq key, Cache.Len_modify _ _ _ _ _,
    rfl, rfl, fun x => Cache.Has_modify _ _ _ _ _ x, hfreq, ?_⟩
  · unfold Cache.Get
    simp only [mapIndex_modify, if_true, he, Option.map_some']
  · intro x hx
    simp only [mapIndex_modify, hx, if_false]

/-- Witness of C6: overwriting `a` in the bounded-eviction scenario, whose
population equals its upper bound. -/
theorem C6_set_overwrite_preserves_freq_witness :
    scenario.Has "a" = true ∧
    ∃ c' : Cache Nat, scenario.Set scenarioRange "a" (some 7) = some c' ∧
      c'.values = mapModify scenario.values "a" (fun e => { e with value := some 7 }) ∧
      (c'.Get "a").1 = some 7 ∧
      c'.GetFrequency "a" = scenario.GetFrequency "a" ∧
      c'.Len = scenario.Len ∧ c'.UpperBound = scenario.UpperBound ∧
      c'.LowerBound = scenario.LowerBound ∧
      (∀ x, c'.Has x = scenario.Has x) ∧
      (∀ x, c'.GetFrequency x = scenario.GetFrequency x) ∧
      (∀ x, x ≠ "a" → mapIndex c'.values x = mapIndex scenario.values x) :=
  ⟨by decide, C6_set_overwrite_preserves_freq scenarioRange scenario "a" (some 7) (by decide)⟩

/-- C7 (presence after Set).  For every cache state in unbounded mode, or in
bounded mode with `UpperBound > LowerBound > 0`, every key `k` and value `v`,
`Set(k, v)` returns, and immediately afterwards `Has(k)` is true and `Get(k)`
returns `v`; the eviction pass of that `Set` runs before the insertion and so
never removes `k`. -/
theorem C7_presence_after_set {α : Type} (range : GoMap α) (c : Cache α)
    (k : String) (v : Option α) (hr : c.IsRange range)
    (hmode : (c.UpperBound = 0 ∨ c.LowerBound = 0) ∨
      (0 < c.LowerBound ∧ c.LowerBound < c.UpperBound)) :
    ∃ c' : Cache α, c.Set range k v = some c' ∧ c'.Has k = true ∧ (c'.Get k).1 = v := by
  cases hk : c.Has k with
  | true =>
    obtain ⟨e, he⟩ := (Cache.Has_eq_true_iff c k).1 hk
    refine ⟨_, Cache.Set_present range c k v hk, ?_, ?_⟩
    · rw [Cache.Has_modify]
      exact hk
    · unfold Cache.Get
      simp only [mapIndex_modify, if_true, he, Option.map_some']
  | false =>
    by_cases hb : c.Len ≥ c.UpperBound ∧ c.UpperBound ≠ 0 ∧ c.LowerBound ≠ 0
    · have h0 : 0 ≤ c.UpperBound - c.LowerBound := by
        rcases hmode with (h | h) | h
        · exact absurd h hb.2.1
        · exact absurd h hb.2.2
        · omega
      obtain ⟨c1, _, hk1, hset⟩ := Cache.Set_evict_spec range c k v hr hk hb h0
      refine ⟨_, hset, (Cache.Has_insert hk1 _ _ _ k).2 (Or.inl rfl), ?_⟩
      rw [Cache.Get_insert hk1]
      simp
    · refine ⟨_, Cache.Set_absent_plain range c k v hk hb,
        (Cache.Has_insert hk _ _ _ k).2 (Or.inl rfl), ?_⟩
      rw [Cache.Get_insert hk]
      simp

/-- Witness of C7: the bounded-eviction scenario, `Set("e", 5)`, which runs the
eviction pass. -/
theorem C7_presence_after_set_witness :
    scenario.IsRange scenarioRange ∧
    ((scenario.UpperBound = 0 ∨ scenario.LowerBound = 0) ∨
      (0 < scenario.LowerBound ∧ scenario.LowerBound < scenario.UpperBound)) ∧
    ∃ c' : Cache Nat, scenario.Set scenarioRange "e" (some 5) = some c' ∧
      c'.Has "e" = true ∧ (c'.Get "e").1 = some 5 :=
  ⟨Cache.scenario_isRange, by decide,
    C7_presence_after_set scenarioRange scenario "e" (some 5) Cache.scenario_isRange
      (by decide)⟩

/-- C8 (Get semantics).  For every cache state and key: if the key is present
with entry `e`, `Get(key)` returns `e.value` and leaves under `key` the entry `e`
with its frequency incremented by 1 in the arithmetic of `int` (`freq++`, which
is `freq + 1` below `maxInt`) and its value and key field unchanged; if the key
is absent, `Get(key)` returns nil and leaves the state unchanged.  In both cases
every other entry, the set of keys, `Len()` and the bounds are unchanged. -/
theorem C8_get_semantics {α : Type} (c : Cache α) (key : String) :
    (∀ e, mapIndex c.values key = some e →
      (c.Get key).1 = e.value ∧
      mapIndex (c.Get key).2.values key = some { e with freq := wrapInt (e.freq + 1) } ∧
      (c.Get key).2.GetFrequency key = wrapInt (c.GetFrequency key + 1) ∧
      (minInt ≤ e.freq → e.freq < maxInt →
        mapIndex (c.Get key).2.values key = some { e with freq := e.freq + 1 } ∧
        (c.Get key).2.GetFrequency key = c.GetFrequency key + 1)) ∧
    (c.Has key = false → c.Get key = (none, c)) ∧
    (∀ x, x ≠ key → mapIndex (c.Get key).2.values x = mapIndex c.values x) ∧
    (∀ x, (c.Get key).2.Has x = c.Has x) ∧
    (c.Get key).2.Len = c.Len ∧
    (c.Get key).2.UpperBound = c.UpperBound ∧
    (c.Get key).2.LowerBound = c.LowerBound := by
  cases hm : mapIndex c.values key with
  | none =>
    have hget : c.Get key = (none, c) := by
      unfold Cache.Get
      simp only [hm]
    rw [hget]
    refine ⟨fun e he => Option.noConfusion he, fun _ => rfl, fun _ _ => rfl, fun _ => rfl,
      rfl, rfl, rfl⟩
  | some e =>
    have hget : c.Get key
        = (e.value, ⟨c.UpperBound, c.LowerBound, mapModify c.values key Cache.increment⟩) := by
      unfold Cache.Get
      simp only [hm]
    rw [hget]
    refine ⟨?_, ?_, ?_, fun x => Cache.Has_modify _ _ _ _ _ x, Cache.Len_modify _ _ _ _ _,
      rfl, rfl⟩
    · intro e' he'
      cases Option.some.inj he'
      have hidx : mapIndex (mapModify c.values key Cache.increment) key
          = some { e with freq := wrapInt (e.freq + 1) } := by
        simp only [mapIndex_modify, if_true, hm, Option.map_some', Cache.increment]
      have hfreq : Cache.GetFrequency (⟨c.UpperBound, c.LowerBound,
          mapModify c.values key Cache.increment⟩ : Cache α) key
            = wrapInt (c.GetFrequency key + 1) := by
        simp only [Cache.GetFrequency, hidx, hm]
      refine ⟨rfl, hidx, hfreq, fun h1 h2 => ?_⟩
      have hw : wrapInt (e.freq + 1) = e.freq + 1 := by
        unfold minInt at h1
        unfold maxInt at h2
        apply wrapInt_of_range
        · unfold minInt
          omega
        · unfold maxInt
          omega
      have hgf : c.GetFrequency key = e.freq := by
        simp only [Cache.GetFrequency, hm]
      refine ⟨?_, ?_⟩
      · rw [hidx, hw]
      · rw [hfreq, hgf, hw]
    · intro h
      rw [Cache.Has_eq_false_iff, hm] at h
      exact Option.noConfusion h
    · intro x hx
      simp only [mapIndex_modify, hx, if_false]

/-- Witness of C8: `Get("a")` in the bounded-eviction scenario, where `a` has
value 1 and frequency 3. -/
theorem C8_get_semantics_witness :
    mapIndex scenario.values "a" = some ⟨some 1, 3, "a"⟩ ∧
    (scenario.Get "a").1 = some 1 ∧
    mapIndex (scenario.Get "a").2.values "a" = some ⟨some 1, wrapInt (3 + 1), "a"⟩ ∧
    (scenario.Get "a").2.GetFrequency "a" = wrapInt (scenario.GetFrequency "a" + 1) ∧
    (minInt ≤ (3 : Int) → (3 : Int) < maxInt →
      mapIndex (scenario.Get "a").2.values "a" = some ⟨some 1, 3 + 1, "a"⟩ ∧
      (scenario.Get "a").2.GetFrequency "a" = scenario.GetFrequency "a" + 1) :=
  ⟨by decide, (C8_get_semantics scenario "a").1 ⟨some 1, 3, "a"⟩ (by decide)⟩

/-- C9 (unbounded mode never evicts).  For every cache state with
`UpperBound = 0` or `LowerBound = 0`, whatever the other bound is, and every key
not present, `Set(key, v)` only appends the new entry: `Len()` grows by exactly
1, the new key has frequency 1 and value `v`, and every previously present
entry stays in place with its value and frequency. -/
theorem C9_unbounded_never_evicts {α : Type} (range : GoMap α) (c : Cache α)
    (key : String) (v : Option α) (hmode : c.UpperBound = 0 ∨ c.LowerBound = 0)
    (hk : c.Has key = false) :
    ∃ c' : Cache α, c.Set range key v = some c' ∧
      c'.Len = c.Len + 1 ∧
      c'.Has key = true ∧ c'.GetFrequency key = 1 ∧ (c'.Get key).1 = v ∧
      (∀ x, x ≠ key → mapIndex c'.values x = mapIndex c.values x) ∧
      (∀ x, c.Has x = true → c'.Has x = true) ∧
      c'.UpperBound = c.UpperBound ∧ c'.LowerBound = c.LowerBound := by
  have hb : ¬ (c.Len ≥ c.UpperBound ∧ c.UpperBound ≠ 0 ∧ c.LowerBound ≠ 0) := by
    rintro ⟨_, h1, h2⟩
    rcases hmode with h | h
    · exact h1 h
    · exact h2 h
  have hnone := (Cache.Has_eq_false_iff c key).1 hk
  refine ⟨_, Cache.Set_absent_plain range c key v hk hb, Cache.Len_insert _ _ _ _,
    (Cache.Has_insert hk _ _ _ key).2 (Or.inl rfl), ?_, ?_, ?_, ?_, rfl, rfl⟩
  · rw [Cache.GetFrequency_insert hk]
    simp
  · rw [Cache.Get_insert hk]
    simp
  · intro x hx
    simp only [Cache.mapIndex_insert hnone, hx, if_false]
  · intro x hx
    exact (Cache.Has_insert hk _ _ _ x).2 (Or.inr hx)

/-- Witness of C9: a cache with bounds 0 and 5 holding `a`, `Set("b", 2)`. -/
theorem C9_unbounded_never_evicts_witness :
    (unbounded.UpperBound = 0 ∨ unbounded.LowerBound = 0) ∧ unbounded.Has "b" = false ∧
    ∃ c' : Cache Nat, unbounded.Set unbounded.values "b" (some 2) = some c' ∧
      c'.Len = unbounded.Len + 1 ∧
      c'.Has "b" = true ∧ c'.GetFrequency "b" = 1 ∧ (c'.Get "b").1 = some 2 ∧
      (∀ x, x ≠ "b" → mapIndex c'.values x = mapIndex unbounded.values x) ∧
      (∀ x, unbounded.Has x = true → c'.Has x = true) ∧
      c'.UpperBound = unbounded.UpperBound ∧ c'.LowerBound = unbounded.LowerBound :=
  ⟨by decide, by decide,
    C9_unbounded_never_evicts unbounded.values unbounded "b" (some 2) (by decide) (by decide)⟩

/-- C10 (Keys returns exactly the keys) fails on the code.  On a cache holding
the single key `a`, `Keys()` returns the two-element sequence `["", "a"]`: the
destination is allocated with `Len()` empty strings and the keys are appended
after them, so the result is longer than `Len()` and contains the placeholder
`""`, which is not a stored key. -/
theorem C10_keys_returns_placeholders :
    single.Keys single.values = ["", "a"] ∧
    ((single.Keys single.values).length : Int) ≠ single.Len ∧
    "" ∈ single.Keys single.values ∧ single.Has "" = false := by
  decide

/-! ## Non-positive counts and the low-water mark -/

/-- With count 0 the pass deletes nothing and resets every frequency. -/
theorem Cache.Evict_zero {α : Type} (range : GoMap α) (c : Cache α) (hr : c.IsRange range) :
    c.Evict range 0
      = some (⟨c.UpperBound, c.LowerBound,
                c.values.map (fun p => (p.1, { p.2 with freq := 1 }))⟩, 0) := by
  obtain ⟨K, D, _, hD, _, hev⟩ := Cache.Evict_split range c 0 hr (le_refl 0)
  have hmin : min (c.values.length : Int) 0 = 0 := min_eq_right (by omega)
  rw [hmin] at hD hev
  have hnil : D = [] := List.eq_nil_of_length_eq_zero (by omega)
  rw [hev, hnil]
  simp

/-- With a negative count the slice expression is out of range. -/
theorem Cache.Evict_neg {α : Type} (range : GoMap α) (c : Cache α) (count : Int)
    (h : count < 0) : c.Evict range count = none := by
  cases hev : c.Evict range count with
  | none => rfl
  | some r =>
    have := Cache.Evict_some_nonneg range c count hev
    omega

/-- C11, as stated, fails on the code: in the bounded-eviction scenario
`Evict(0)` returns 0 but lowers the frequency of `a` from 3 to 1, and
`Evict(-1)` does not return (the slice expression panics). -/
theorem C11_evict_nonpositive_counterexample :
    (scenario.Evict scenarioRange 0).map (fun r => (r.1.GetFrequency "a", r.2))
      = some (1, 0) ∧
    scenario.GetFrequency "a" = 3 ∧
    scenario.Evict scenarioRange (-1) = none := by
  decide

/-- C11, amended.  For every cache state, `Evict(0)` completes, returns 0,
removes no entry, leaves the bounds and every entry's value unchanged, and sets
the frequency of every entry to 1. -/
theorem C11_evict_zero {α : Type} (range : GoMap α) (c : Cache α) (hr : c.IsRange range) :
    ∃ c' : Cache α, c.Evict range 0 = some (c', 0) ∧
      c'.Len = c.Len ∧
      c'.UpperBound = c.UpperBound ∧ c'.LowerBound = c.LowerBound ∧
      (∀ key, c'.Has key = c.Has key) ∧
      (∀ key, (c'.Get key).1 = (c.Get key).1) ∧
      (∀ key, c'.Has key = true → c'.GetFrequency key = 1) := by
  have hidx : ∀ key, mapIndex (c.values.map (fun p => (p.1, { p.2 with freq := 1 }))) key
      = (mapIndex c.values key).map (fun e => { e with freq := 1 }) :=
    fun key => mapIndex_map_snd c.values (fun e => ({ e with freq := 1 } : CacheValue α)) key
  refine ⟨_, Cache.Evict_zero range c hr, ?_, rfl, rfl, ?_, ?_, ?_⟩
  · simp [Cache.Len]
  · intro key
    unfold Cache.Has
    simp only [hidx]
    cases mapIndex c.values key <;> rfl
  · intro key
    unfold Cache.Get
    simp only [hidx]
    cases mapIndex c.values key <;> rfl
  · intro key
    unfold Cache.Has Cache.GetFrequency
    simp only [hidx]
    cases mapIndex c.values key with
    | none => intro h; exact Bool.noConfusion h
    | some e => intro _; rfl

/-- Witness of C11 (amended): the bounded-eviction scenario. -/
theorem C11_evict_zero_witness :
    scenario.IsRange scenarioRange ∧
    ∃ c' : Cache Nat, scenario.Evict scenarioRange 0 = some (c', 0) ∧
      c'.Len = scenario.Len ∧
      c'.UpperBound = scenario.UpperBound ∧ c'.LowerBound = scenario.LowerBound ∧
      (∀ key, c'.Has key = scenario.Has key) ∧
      (∀ key, (c'.Get key).1 = (scenario.Get key).1) ∧
      (∀ key, c'.Has key = true → c'.GetFrequency key = 1) :=
  ⟨Cache.scenario_isRange, C11_evict_zero scenarioRange scenario Cache.scenario_isRange⟩

/-- C12, as stated, fails on the code: with bounds 2 and 1 and the two keys `a`
and `b`, `Set("c", 3)` returns with `Len() = 2`, which exceeds `LowerBound = 1`. -/
theorem C12_shrink_counterexample :
    0 < twoKeys.LowerBound ∧ twoKeys.LowerBound < twoKeys.UpperBound ∧
    twoKeys.Len = twoKeys.UpperBound ∧ twoKeys.Has "c" = false ∧
    (twoKeys.Set twoKeys.values "c" (some 3)).map Cache.Len = some 2 ∧
    ¬ ((2 : Int) ≤ twoKeys.LowerBound) := by
  decide

/-- C12, amended.  With `UpperBound > LowerBound > 0`, a `Set` of a new key
called with population equal to `UpperBound` returns with
`Len() = LowerBound + 1`: the eviction pass leaves `LowerBound` entries and the
new key is inserted after it. -/
theorem C12_shrink_to_low_water_plus_one {α : Type} (range : GoMap α) (c : Cache α)
    (key : String) (v : Option α) (hwf : c.WF) (hr : c.IsRange range)
    (hl : 0 < c.LowerBound) (hu : c.LowerBound < c.UpperBound)
    (hn : c.Len = c.UpperBound) (hk : c.Has key = false) :
    ∃ c' : Cache α, c.Set range key v = some c' ∧ c'.Len = c.LowerBound + 1 := by
  have h0 : 0 ≤ c.UpperBound - c.LowerBound := by omega
  have hb : c.Len ≥ c.UpperBound ∧ c.UpperBound ≠ 0 ∧ c.LowerBound ≠ 0 :=
    ⟨by omega, by omega, by omega⟩
  obtain ⟨c1, hev1, _, _, _, hlen1, _⟩ := Cache.Evict_spec range c _ hwf hr h0
  obtain ⟨c2, hev2, _, hset⟩ := Cache.Set_evict_spec range c key v hr hk hb h0
  rw [hev1] at hev2
  cases (Prod.mk.inj (Option.some.inj hev2)).1
  refine ⟨_, hset, ?_⟩
  rw [Cache.Len_insert, hlen1]
  omega

/-- Witness of C12 (amended): bounds 2 and 1, keys `a` and `b`, `Set("c", 3)`. -/
theorem C12_shrink_to_low_water_plus_one_witness :
    twoKeys.WF ∧ twoKeys.IsRange twoKeys.values ∧
    0 < twoKeys.LowerBound ∧ twoKeys.LowerBound < twoKeys.UpperBound ∧
    twoKeys.Len = twoKeys.UpperBound ∧ twoKeys.Has "c" = false ∧
    ∃ c' : Cache Nat, twoKeys.Set twoKeys.values "c" (some 3) = some c' ∧
      c'.Len = twoKeys.LowerBound + 1 :=
  ⟨by unfold Cache.WF twoKeys; decide, List.Perm.refl _, by decide, by decide, by decide,
    by decide,
    C12_shrink_to_low_water_plus_one twoKeys.values twoKeys "c" (some 3)
      (by unfold Cache.WF twoKeys; decide) (List.Perm.refl _) (by decide) (by decide)
      (by decide) (by decide)⟩

/-- C13 fails on the code.  With `UpperBound = 1 < LowerBound = 2`, population 1
and `b` not present, `Set("b", 2)` calls `Evict(-1)`, whose slice expression
`temp[len(temp)-count:]` is out of range: the call panics and nothing is
inserted. -/
theorem C13_misconfigured_set_panics :
    misconfigured.UpperBound ≠ 0 ∧ misconfigured.LowerBound ≠ 0 ∧
    misconfigured.UpperBound ≤ misconfigured.LowerBound ∧
    misconfigured.Len ≥ misconfigured.UpperBound ∧ misconfigured.Has "b" = false ∧
    misconfigured.Evict misconfigured.values
      (misconfigured.UpperBound - misconfigured.LowerBound) = none ∧
    misconfigured.Set misconfigured.values "b" (some 2) = none := by
  decide

/-- With `UpperBound < LowerBound`, both non-zero and with a difference that
is a value of `int` (the subtraction does not wrap), every `Set` of a new key
whose bound check succeeds panics. -/
theorem Cache.Set_misconfigured_panics {α : Type} (range : GoMap α) (c : Cache α)
    (key : String) (v : Option α) (hk : c.Has key = false)
    (hb : c.Len ≥ c.UpperBound ∧ c.UpperBound ≠ 0 ∧ c.LowerBound ≠ 0)
    (hlt : c.UpperBound < c.LowerBound) (_hnowrap : minInt ≤ c.UpperBound - c.LowerBound) :
    c.Set range key v = none := by
  cases hs : c.Set range key v with
  | none => rfl
  | some c' =>
    rcases Cache.Set_cases range c key v hs with ⟨h, _⟩ | ⟨_, h, _⟩ | ⟨_, _, h, _⟩
    · rw [hk] at h
      exact Bool.noConfusion h
    · exact absurd hb h
    · omega

/-! ## Queries -/

/-- C14 (queries are read-only and exact).  For every cache state and key,
`Has`, `Len`, `GetFrequency` and `Keys` return in the state they were called in;
`Has(key)` is true iff `key` is a key of the map, `Len()` is the number of
distinct keys, and `GetFrequency(key)` is the frequency of the entry stored
under `key`, or 0 when there is none. -/
theorem C14_queries_read_only_exact {α : Type} (c : Cache α) (key : String)
    (range : GoMap α) (hwf : c.WF) :
    Op.apply c (Op.Has key) = some c ∧ Op.apply c Op.Len = some c ∧
    Op.apply c (Op.GetFrequency key) = some c ∧ Op.apply c (Op.Keys range) = some c ∧
    (c.Has key = true ↔ key ∈ c.values.map Prod.fst) ∧
    c.Len = ((c.values.map Prod.fst).toFinset.card : Int) ∧
    (∀ e, (key, e) ∈ c.values → c.GetFrequency key = e.freq) ∧
    (key ∉ c.values.map Prod.fst → c.GetFrequency key = 0) := by
  refine ⟨rfl, rfl, rfl, rfl, ?_, ?_, ?_, ?_⟩
  · constructor
    · intro h
      by_contra hn
      have := (mapIndex_eq_none_iff c.values key).2 hn
      rw [(Cache.Has_eq_false_iff c key).2 this] at h
      exact Bool.noConfusion h
    · intro h
      cases hh : c.Has key with
      | true => rfl
      | false =>
        exact absurd h ((mapIndex_eq_none_iff c.values key).1
          ((Cache.Has_eq_false_iff c key).1 hh))
  · rw [List.toFinset_card_of_nodup hwf.1]
    simp [Cache.Len]
  · intro e he
    unfold Cache.GetFrequency
    rw [mapIndex_of_mem hwf.1 he]
  · intro h
    unfold Cache.GetFrequency
    rw [(mapIndex_eq_none_iff c.values key).2 h]

/-- Witness of C14: the bounded-eviction scenario and the key `a`. -/
theorem C14_queries_read_only_exact_witness :
    scenario.WF ∧
    Op.apply scenario (Op.Has "a") = some scenario ∧ Op.apply scenario Op.Len = some scenario ∧
    Op.apply scenario (Op.GetFrequency "a") = some scenario ∧
    Op.apply scenario (Op.Keys scenarioRange) = some scenario ∧
    (scenario.Has "a" = true ↔ "a" ∈ scenario.values.map Prod.fst) ∧
    scenario.Len = ((scenario.values.map Prod.fst).toFinset.card : Int) ∧
    (∀ e, ("a", e) ∈ scenario.values → scenario.GetFrequency "a" = e.freq) ∧
    ("a" ∉ scenario.values.map Prod.fst → scenario.GetFrequency "a" = 0) :=
  ⟨Cache.scenario_wf, C14_queries_read_only_exact scenario "a" scenarioRange Cache.scenario_wf⟩

/-! ## Invariants of the states reached from `New()` -/

theorem ReachableNew.index_wf {α : Type} {c : Cache α} (h : ReachableNew c) : c.WF := by
  induction h with
  | new => exact ⟨List.nodup_nil, fun p hp => by cases hp⟩
  | bounds u l _ ih => exact ih
  | call op _ hv happ ih => exact (Cache.step_wf op ih hv happ).1

/-- Every entry of the state after a pass has frequency 1. -/
theorem Cache.Evict_all_one {α : Type} (range : GoMap α) (c : Cache α) (count : Int)
    (hr : c.IsRange range) {c1 : Cache α} {n : Int}
    (hev : c.Evict range count = some (c1, n)) : ∀ p ∈ c1.values, p.2.freq = 1 := by
  obtain ⟨K, D, _, _, _, hev2⟩ :=
    Cache.Evict_split range c count hr (Cache.Evict_some_nonneg _ _ _ hev)
  rw [hev] at hev2
  cases (Prod.mk.inj (Option.some.inj hev2)).1
  intro p hp
  obtain ⟨q, _, rfl⟩ := List.mem_map.1 hp
  rfl

theorem mapAssign_forall {α : Type} (P : CacheValue α → Prop) (m : GoMap α) (key : String)
    (e : CacheValue α) (hm : ∀ p ∈ m, P p.2) (he : P e) :
    ∀ p ∈ mapAssign m key e, P p.2 := by
  intro p hp
  unfold mapAssign at hp
  cases hi : mapIndex m key with
  | none =>
    simp only [hi] at hp
    rcases List.mem_append.1 hp with h | h
    · exact hm p h
    · rw [List.mem_singleton] at h
      rw [h]
      exact he
  | some e0 =>
    simp only [hi, mapModify] at hp
    obtain ⟨q, hq, rfl⟩ := List.mem_map.1 hp
    by_cases hk : q.1 = key
    · simp only [hk, if_true]
      exact he
    · simp only [hk, if_false]
      exact hm q hq

/-- One returning call that makes no frequency wrap around keeps every
frequency at 1 or more. -/
theorem Cache.step_freq_pos {α : Type} {c c' : Cache α} (op : Op α) (hwf : c.WF)
    (hpos : ∀ p ∈ c.values, 1 ≤ p.2.freq) (hv : op.Valid c) (hno : ¬ op.Overflows c)
    (h : op.apply c = some c') : ∀ p ∈ c'.values, 1 ≤ p.2.freq := by
  cases op with
  | Has key => cases Option.some.inj h; exact hpos
  | Len => cases Option.some.inj h; exact hpos
  | GetFrequency key => cases Option.some.inj h; exact hpos
  | Keys range => cases Option.some.inj h; exact hpos
  | Get key =>
    have h2 : (c.Get key).2 = c' := Option.some.inj h
    have hlt : c.GetFrequency key < maxInt := lt_of_not_le hno
    rw [← h2]
    unfold Cache.Get
    cases hm : mapIndex c.values key with
    | none => exact hpos
    | some e =>
      intro p hp
      obtain ⟨q, hq, rfl⟩ := List.mem_map.1 hp
      have hq1 := hpos q hq
      by_cases hk : q.1 = key
      · have hqe : mapIndex c.values key = some q.2 := by
          rw [← hk]
          exact mapIndex_of_mem hwf.1 hq
        have hfreq : c.GetFrequency key = q.2.freq := by
          simp only [Cache.GetFrequency, hqe]
        rw [hfreq] at hlt
        simp only [hk, if_true, Cache.increment]
        exact wrapInt_succ_pos hq1 hlt
      · simp only [hk, if_false]
        exact hq1
  | Evict range count =>
    have hr : c.IsRange range := hv
    simp only [Op.apply] at h
    cases hev : c.Evict range count with
    | none => simp [hev] at h
    | some r =>
      obtain ⟨c1, n⟩ := r
      rw [hev] at h
      cases Option.some.inj h
      intro p hp
      rw [Cache.Evict_all_one range c count hr hev p hp]
  | Set range key value =>
    have hr : c.IsRange range := hv
    have h' : c.Set range key value = some c' := h
    rcases Cache.Set_cases range c key value h' with
      ⟨_, rfl⟩ | ⟨_, _, rfl⟩ | ⟨_, _, _, c1, n, hev, rfl⟩
    · intro p hp
      obtain ⟨q, hq, rfl⟩ := List.mem_map.1 hp
      have := hpos q hq
      by_cases hk : q.1 = key
      · simp only [hk, if_true]
        exact this
      · simp only [hk, if_false]
        exact this
    · intro p hp
      rcases List.mem_append.1 hp with h1 | h1
      · exact hpos p h1
      · rw [List.mem_singleton] at h1
        rw [h1]
    · apply mapAssign_forall (fun e => 1 ≤ e.freq)
      · intro p hp
        rw [Cache.Evict_all_one range c _ hr hev p hp]
      · exact le_refl 1

theorem ReachableNoOverflow.reachableNew {α : Type} {c : Cache α}
    (h : ReachableNoOverflow c) : ReachableNew c := by
  induction h with
  | new => exact ReachableNew.new
  | bounds u l _ ih => exact ReachableNew.bounds u l ih
  | call op _ hv _ happ ih => exact ReachableNew.call op ih hv happ

theorem ReachableNoOverflow.freq_pos {α : Type} {c : Cache α} (h : ReachableNoOverflow c) :
    ∀ p ∈ c.values, 1 ≤ p.2.freq := by
  induction h with
  | new => intro p hp; cases hp
  | bounds u l _ ih => exact ih
  | call op hreach hv hno happ ih =>
    exact Cache.step_freq_pos op (ReachableNew.index_wf hreach.reachableNew) ih hv hno happ

theorem single_reachableNew : ReachableNew single :=
  ReachableNew.call (Op.Set [] "a" (some 1)) ReachableNew.new (List.Perm.refl _) (by decide)

theorem single_reachableNoOverflow : ReachableNoOverflow single :=
  ReachableNoOverflow.call (Op.Set [] "a" (some 1)) ReachableNoOverflow.new
    (List.Perm.refl _) (fun h => h) (by decide)

/-- After `Set("a", 1)` and `n` calls `Get("a")` on a new cache, the frequency
of `a` is `1 + n` in the arithmetic of `int`. -/
theorem reads_reachableNew (n : Nat) :
    ReachableNew (⟨0, 0, [("a", ⟨some 1, wrapInt (1 + (n : Int)), "a"⟩)]⟩ : Cache Nat) := by
  induction n with
  | zero => exact single_reachableNew
  | succ n ih =>
    refine ReachableNew.call (Op.Get "a") ih trivial ?_
    have h : wrapInt (wrapInt (1 + (n : Int)) + 1) = wrapInt (1 + ((n + 1 : Nat) : Int)) := by
      have e : (1 : Int) + (n : Int) + 1 = 1 + ((n + 1 : Nat) : Int) := by
        push_cast
        ring
      rw [wrapInt_wrapInt_add, e]
    simp only [Op.apply, Cache.Get, mapIndex, if_true, mapModify, List.map_cons, List.map_nil,
      Cache.increment, h]

/-- C15, as stated, fails on the code: the state in which `a` has frequency
`minInt` is reached from `New()` by `Set("a", 1)` followed by `maxInt` calls
`Get("a")`, the last of which makes `freq++` wrap around; there `a` is present
with a frequency below 1. -/
theorem C15_frequency_positive_counterexample :
    ReachableNew (⟨0, 0, [("a", ⟨some 1, minInt, "a"⟩)]⟩ : Cache Nat) ∧
    Cache.Has (⟨0, 0, [("a", ⟨some 1, minInt, "a"⟩)]⟩ : Cache Nat) "a" = true ∧
    ¬ (1 ≤ Cache.GetFrequency (⟨0, 0, [("a", ⟨some 1, minInt, "a"⟩)]⟩ : Cache Nat) "a") := by
  refine ⟨?_, by decide, by decide⟩
  have h := reads_reachableNew 9223372036854775807
  have hw : wrapInt (1 + ((9223372036854775807 : Nat) : Int)) = minInt := by decide
  rw [hw] at h
  exact h

/-- C15, amended.  In every state reached from `New()` by a sequence of public
calls that return and of which none is a `Get` of a key whose frequency has
reached `maxInt`, with the bound fields assigned anywhere in between, every
entry stored has frequency at least 1, so `GetFrequency(key)` is 0 iff `key` is
absent. -/
theorem C15_frequency_positive {α : Type} (c : Cache α) (h : ReachableNoOverflow c) :
    (∀ key e, mapIndex c.values key = some e → 1 ≤ e.freq) ∧
    (∀ key, c.Has key = true → 1 ≤ c.GetFrequency key) ∧
    (∀ key, c.GetFrequency key = 0 ↔ c.Has key = false) := by
  have hpos := ReachableNoOverflow.freq_pos h
  have h1 : ∀ key e, mapIndex c.values key = some e → 1 ≤ e.freq :=
    fun key e he => hpos (key, e) (mapIndex_mem he)
  refine ⟨h1, ?_, ?_⟩
  · intro key hk
    obtain ⟨e, he⟩ := (Cache.Has_eq_true_iff c key).1 hk
    unfold Cache.GetFrequency
    simp only [he]
    exact h1 key e he
  · intro key
    unfold Cache.GetFrequency Cache.Has
    cases hm : mapIndex c.values key with
    | none => simp
    | some e =>
      have := h1 key e hm
      simp only [Bool.true_eq_false, iff_false]
      omega

/-- Witness of C15 (amended): the state after `New()` and `Set("a", 1)`. -/
theorem C15_frequency_positive_witness :
    ReachableNoOverflow single ∧
    (∀ key e, mapIndex single.values key = some e → 1 ≤ e.freq) ∧
    (∀ key, single.Has key = true → 1 ≤ single.GetFrequency key) ∧
    (∀ key, single.GetFrequency key = 0 ↔ single.Has key = false) :=
  ⟨single_reachableNoOverflow, C15_frequency_positive single single_reachableNoOverflow⟩

/-! ## Frequencies between evictions -/

theorem Cache.GetFrequency_modify_value {α : Type} (c : Cache α) (u l : Int) (key : String)
    (v : Option α) (x : String) :
    Cache.GetFrequency (⟨u, l, mapModify c.values key (fun e => { e with value := v })⟩ :
      Cache α) x = c.GetFrequency x := by
  unfold Cache.GetFrequency
  simp only [mapIndex_modify]
  by_cases hx : x = key
  · simp only [hx, if_true]
    cases mapIndex c.values key <;> rfl
  · simp only [hx, if_false]

theorem Cache.GetFrequency_increment {α : Type} (c : Cache α) (u l : Int) (key : String)
    (x : String) (hmax : x = key → c.GetFrequency x < maxInt) :
    c.GetFrequency x
      ≤ Cache.GetFrequency (⟨u, l, mapModify c.values key Cache.increment⟩ : Cache α) x := by
  unfold Cache.GetFrequency at hmax ⊢
  simp only [mapIndex_modify]
  by_cases hx : x = key
  · have hlt := hmax hx
    rw [hx] at hlt
    simp only [hx, if_true]
    cases hm : mapIndex c.values key with
    | none => exact le_refl _
    | some e =>
      simp only [hm] at hlt
      simp only [Option.map_some', Cache.increment]
      exact le_wrapInt_succ hlt
  · simp only [hx, if_false]
    exact le_refl _

/-- C16, as stated, fails on the code: on the cache in which `a` has frequency
`maxInt`, a state reached from `New()` by `Set("a", 1)` and `maxInt - 1` calls
`Get("a")`, the call `Get("a")` runs no eviction pass, `a` is present before and
after, and `GetFrequency("a")` drops from `maxInt` to `minInt`. -/
theorem C16_frequency_monotone_counterexample :
    ReachableNew maxed ∧
    ¬ (Op.Get "a" : Op Nat).Evicts maxed ∧
    Op.apply maxed (Op.Get "a") = some (maxed.Get "a").2 ∧
    maxed.Has "a" = true ∧ (maxed.Get "a").2.Has "a" = true ∧
    maxed.GetFrequency "a" = maxInt ∧ (maxed.Get "a").2.GetFrequency "a" = minInt ∧
    ¬ (maxed.GetFrequency "a" ≤ (maxed.Get "a").2.GetFrequency "a") := by
  refine ⟨?_, fun h => h, rfl, by decide, by decide, by decide, by decide, by decide⟩
  have h := reads_reachableNew 9223372036854775806
  have hw : wrapInt (1 + ((9223372036854775806 : Nat) : Int)) = 9223372036854775807 := by
    decide
  rw [hw] at h
  exact h

/-- C16, amended.  For every cache state, every call that returns and runs no
eviction pass (`Has`, `Get`, `Len`, `GetFrequency`, `Keys`, `Set` on an existing
key, `Set` on a new key whose bound check fails) and every key `k` present
before and after the call, `GetFrequency(k)` after the call is at least its
value before, unless the call is `Get(k)` and the frequency of `k` has reached
`maxInt`; so below `maxInt` only `Evict` or a `Set` that runs the eviction pass
can lower a frequency. -/
theorem C16_frequency_monotone_between_evictions {α : Type} (c c' : Cache α) (op : Op α)
    (hne : ¬ op.Evicts c) (h : op.apply c = some c') (k : String)
    (hb : c.Has k = true) (_ha : c'.Has k = true)
    (hmax : op = Op.Get k → c.GetFrequency k < maxInt) :
    c.GetFrequency k ≤ c'.GetFrequency k := by
  cases op with
  | Has key => cases Option.some.inj h; exact le_refl _
  | Len => cases Option.some.inj h; exact le_refl _
  | GetFrequency key => cases Option.some.inj h; exact le_refl _
  | Keys range => cases Option.some.inj h; exact le_refl _
  | Evict range count => exact absurd trivial hne
  | Get key =>
    have h2 : (c.Get key).2 = c' := Option.some.inj h
    rw [← h2]
    unfold Cache.Get
    cases mapIndex c.values key with
    | none => exact le_refl _
    | some e =>
      exact Cache.GetFrequency_increment c _ _ key k (fun hk => hmax (by rw [hk]))
  | Set range key value =>
    have h' : c.Set range key value = some c' := h
    rcases Cache.Set_cases range c key value h' with
      ⟨_, rfl⟩ | ⟨hk, _, rfl⟩ | ⟨hk, hcond, _⟩
    · rw [Cache.GetFrequency_modify_value]
    · rw [Cache.GetFrequency_insert hk]
      have hne' : k ≠ key := by
        intro hkk
        rw [hkk, hk] at hb
        exact Bool.noConfusion hb
      simp only [hne', if_false]
      exact le_refl _
    · exact absurd ⟨hk, hcond⟩ hne

/-- Witness of C16 (amended): `Get("a")` in the bounded-eviction scenario. -/
theorem C16_frequency_monotone_between_evictions_witness :
    ¬ (Op.Get "a" : Op Nat).Evicts scenario ∧
    Op.apply scenario (Op.Get "a") = some (scenario.Get "a").2 ∧
    scenario.Has "a" = true ∧ (scenario.Get "a").2.Has "a" = true ∧
    ((Op.Get "a" : Op Nat) = Op.Get "a" → scenario.GetFrequency "a" < maxInt) ∧
    scenario.GetFrequency "a" ≤ (scenario.Get "a").2.GetFrequency "a" :=
  ⟨fun h => h, rfl, by decide, by decide, fun _ => by decide,
    C16_frequency_monotone_between_evictions scenario (scenario.Get "a").2 (Op.Get "a")
      (fun h => h) rfl "a" (by decide) (by decide) (fun _ => by decide)⟩

/-! ## Counting reads -/

theorem Cache.GetN_single {α : Type} (k : String) (v : Option α) (u l : Int) (n : Nat) :
    ∀ f : Int, Cache.GetN k (n + 1) (⟨u, l, [(k, ⟨v, f, k⟩)]⟩ : Cache α)
      = (List.replicate (n + 1) v, ⟨u, l, [(k, ⟨v, wrapInt (f + ((n + 1 : Nat) : Int)), k⟩)]⟩) := by
  induction n with
  | zero =>
    intro f
    simp [Cache.GetN, Cache.Get, mapIndex, mapModify, Cache.increment]
  | succ n ih =>
    intro f
    have hget : Cache.Get (⟨u, l, [(k, ⟨v, f, k⟩)]⟩ : Cache α) k
        = (v, ⟨u, l, [(k, ⟨v, wrapInt (f + 1), k⟩)]⟩) := by
      simp [Cache.Get, mapIndex, mapModify, Cache.increment]
    have hw : wrapInt (wrapInt (f + 1) + ((n + 1 : Nat) : Int))
        = wrapInt (f + ((n + 1 + 1 : Nat) : Int)) := by
      have e : f + 1 + ((n + 1 : Nat) : Int) = f + ((n + 1 + 1 : Nat) : Int) := by
        push_cast
        ring
      rw [wrapInt_wrapInt_add, e]
    rw [Cache.GetN, hget]
    simp only [ih (wrapInt (f + 1)), hw, List.replicate_succ]

/-- The frequency of a single entry after `n` calls `Get`, starting from a
value `f` of type `int`. -/
theorem Cache.GetN_single_wrap {α : Type} (k : String) (v : Option α) (u l : Int) (n : Nat)
    (f : Int) (h1 : minInt ≤ f) (h2 : f ≤ maxInt) :
    Cache.GetN k n (⟨u, l, [(k, ⟨v, f, k⟩)]⟩ : Cache α)
      = (List.replicate n v, ⟨u, l, [(k, ⟨v, wrapInt (f + (n : Int)), k⟩)]⟩) := by
  cases n with
  | zero =>
    have hw : wrapInt f = f := wrapInt_of_range h1 h2
    simp [Cache.GetN, hw]
  | succ n => exact Cache.GetN_single k v u l n f

/-- C17 (frequency counts reads since insertion).  For every `n`, key `k` and
values `v1`, `v2`, starting from `New()`: `Set(k, v1)` returns, the `n` calls
`Get(k)` that follow all return `v1`, the `Set(k, v2)` after them returns, and
then `GetFrequency(k)` is `n + 1` in the arithmetic of `int`, which is the
number `n + 1` for every `n < maxInt`, `Len() = 1`, and a following `Get(k)`
returns `v2`. -/
theorem C17_frequency_counts_reads {α : Type} (n : Nat) (k : String) (v1 v2 : Option α)
    (r1 r2 : GoMap α) :
    ∃ c1 c3 : Cache α,
      (New : Cache α).Set r1 k v1 = some c1 ∧
      (Cache.GetN k n c1).1 = List.replicate n v1 ∧
      (Cache.GetN k n c1).2.Set r2 k v2 = some c3 ∧
      c3.GetFrequency k = wrapInt ((n : Int) + 1) ∧
      ((n : Int) < maxInt → c3.GetFrequency k = (n : Int) + 1) ∧
      c3.Len = 1 ∧ (c3.Get k).1 = v2 := by
  have hset1 : (New : Cache α).Set r1 k v1 = some ⟨0, 0, [(k, ⟨v1, 1, k⟩)]⟩ := by
    simp [Cache.Set, New, mapIndex, mapAssign]
  have hget := Cache.GetN_single_wrap k v1 0 0 n 1 (by decide) (by decide)
  have hset2 : Cache.Set r2 (⟨0, 0, [(k, ⟨v1, wrapInt (1 + n), k⟩)]⟩ : Cache α) k v2
      = some ⟨0, 0, [(k, ⟨v2, wrapInt (1 + n), k⟩)]⟩ := by
    simp [Cache.Set, mapIndex, mapModify]
  have hfreq : Cache.GetFrequency (⟨0, 0, [(k, ⟨v2, wrapInt (1 + n), k⟩)]⟩ : Cache α) k
      = wrapInt ((n : Int) + 1) := by
    simp [Cache.GetFrequency, mapIndex, add_comm]
  refine ⟨_, ⟨0, 0, [(k, ⟨v2, wrapInt (1 + n), k⟩)]⟩, hset1, ?_, ?_, hfreq, ?_, ?_, ?_⟩
  · rw [hget]
  · rw [hget]
    exact hset2
  · intro hn
    rw [hfreq]
    apply wrapInt_of_range
    · unfold minInt
      omega
    · unfold maxInt at hn ⊢
      omega
  · simp [Cache.Len]
  · simp [Cache.Get, mapIndex]

/-- Witness of C17: the overwrite scenario, `Set("a", 1)`, two calls
`Get("a")`, `Set("a", 2)`. -/
theorem C17_frequency_counts_reads_witness :
    ∃ c1 c3 : Cache Nat,
      (New : Cache Nat).Set [] "a" (some 1) = some c1 ∧
      (Cache.GetN "a" 2 c1).1 = List.replicate 2 (some 1) ∧
      (Cache.GetN "a" 2 c1).2.Set [] "a" (some 2) = some c3 ∧
      c3.GetFrequency "a" = wrapInt (((2 : Nat) : Int) + 1) ∧
      (((2 : Nat) : Int) < maxInt → c3.GetFrequency "a" = ((2 : Nat) : Int) + 1) ∧
      c3.Len = 1 ∧ (c3.Get "a").1 = some 2 :=
  C17_frequency_counts_reads 2 "a" (some 1) (some 2) [] []

/-! ## The mutex -/

/-- On a key not present `Set` acquires the mutex at least twice and evaluates
its bound check with the mutex released. -/
theorem Cache.SetEvents_new_key {α : Type} (c : Cache α) (key : String)
    (hk : c.Has key = false) :
    2 ≤ acquisitions (c.SetEvents key) ∧ accessesLocked false (c.SetEvents key) = false := by
  have he := (Cache.Has_eq_false_iff c key).1 hk
  unfold Cache.SetEvents
  simp only [he]
  by_cases hb : (c.values.length : Int) ≥ c.UpperBound ∧ c.UpperBound ≠ 0 ∧ c.LowerBound ≠ 0
  · rw [if_pos hb]
    decide
  · rw [if_neg hb]
    decide

/-- C18 fails on the code.  On the cache holding only `a`, `Set("b", _)` runs
`Lock, Read, Unlock, Read, Lock, Write, Unlock`: it acquires the mutex twice and
reads the population for its bound check while the mutex is released.  In the
bounded-eviction scenario `Set("e", _)` acquires it three times, the second
time inside `Evict`.  `Set` on a present key, `Get`, `Evict` and the queries
hold the mutex from their first to their last access. -/
theorem C18_set_releases_lock_before_check :
    single.Has "b" = false ∧
    single.SetEvents "b"
      = [Event.Lock, Event.Read, Event.Unlock, Event.Read,
         Event.Lock, Event.Write, Event.Unlock] ∧
    acquisitions (single.SetEvents "b") = 2 ∧
    accessesLocked false (single.SetEvents "b") = false ∧
    acquisitions (scenario.SetEvents "e") = 3 ∧
    accessesLocked false (scenario.SetEvents "e") = false ∧
    (acquisitions (single.SetEvents "a") = 1 ∧
      accessesLocked false (single.SetEvents "a") = true) ∧
    (acquisitions (single.GetEvents "a") = 1 ∧
      accessesLocked false (single.GetEvents "a") = true) ∧
    (acquisitions Cache.EvictEvents = 1 ∧ accessesLocked false Cache.EvictEvents = true) ∧
    (acquisitions Cache.QueryEvents = 1 ∧ accessesLocked false Cache.QueryEvents = true) := by
  decide

/-! ## Index consistency -/

/-- The pass in terms of the slice `to_delete`: the sorted sequence is a kept
part followed by `to_delete`, and the map keeps the pairs whose key is not a
key field of `to_delete`. -/
theorem Cache.Evict_toDelete {α : Type} (range : GoMap α) (c : Cache α) (count : Int)
    (hr : c.IsRange range) (h0 : 0 ≤ count) :
    ∃ K : List (CacheValue α),
      (K ++ Cache.toDelete range c count).Perm (c.values.map Prod.snd) ∧
      ((Cache.toDelete range c count).length : Int) = min (c.values.length : Int) count ∧
      (∀ a ∈ K, ∀ b ∈ Cache.toDelete range c count, b.freq ≤ a.freq) ∧
      c.Evict range count
        = some (⟨c.UpperBound, c.LowerBound,
                  (c.values.filter (fun p =>
                    decide (p.1 ∉ (Cache.toDelete range c count).map CacheValue.key))).map
                    (fun p => (p.1, { p.2 with freq := 1 }))⟩,
                min (c.values.length : Int) count) := by
  have hlen : (SortStableFunc (range.map Prod.snd) Cache.evictCmp).length
      = c.values.length := by
    rw [(Cache.SortStableFunc_perm _ _).length_eq, List.length_map]
    exact List.Perm.length_eq hr
  have hlow : 0 ≤ (c.values.length : Int) - min (c.values.length : Int) count ∧
      (c.values.length : Int) - min (c.values.length : Int) count ≤ (c.values.length : Int) := by
    omega
  have htd : Cache.toDelete range c count
      = (SortStableFunc (range.map Prod.snd) Cache.evictCmp).drop
          ((c.values.length : Int) - min (c.values.length : Int) count).toNat := by
    unfold Cache.toDelete
    simp only [hlen]
  rw [htd]
  refine ⟨(SortStableFunc (range.map Prod.snd) Cache.evictCmp).take
            ((c.values.length : Int) - min (c.values.length : Int) count).toNat, ?_, ?_, ?_, ?_⟩
  · rw [List.take_append_drop]
    exact (Cache.SortStableFunc_perm _ _).trans (List.Perm.map _ hr)
  · rw [List.length_drop, hlen]
    omega
  · have hs := Cache.SortStableFunc_sorted (range.map Prod.snd)
    rw [← List.take_append_drop
      ((c.values.length : Int) - min (c.values.length : Int) count).toNat
      (SortStableFunc (range.map Prod.snd) Cache.evictCmp)] at hs
    exact (List.pairwise_append.1 hs).2.2
  · unfold Cache.Evict
    simp only [hlen, hlow, and_self, if_true, foldl_mapDelete]

/-- In a well-formed map a pass removes exactly the entries of `to_delete`. -/
theorem Cache.Evict_removes_selected {α : Type} (range : GoMap α) (c : Cache α)
    (count : Int) (hwf : c.WF) (hr : c.IsRange range) (h0 : 0 ≤ count) :
    ∃ c' : Cache α, c.Evict range count = some (c', min c.Len count) ∧
      ∀ p ∈ c.values, (c'.Has p.1 = false ↔ p.2 ∈ Cache.toDelete range c count) := by
  obtain ⟨K, hp, _, _, hev⟩ := Cache.Evict_toDelete range c count hr h0
  refine ⟨_, hev, fun p hp' => ?_⟩
  have hidx := Cache.mapIndex_after_evict c.values
    ((Cache.toDelete range c count).map CacheValue.key) p.1
  have hsome : mapIndex c.values p.1 = some p.2 := mapIndex_of_mem hwf.1 hp'
  rw [Cache.Has_eq_false_iff]
  simp only [hidx, hsome, Option.map_some']
  constructor
  · intro h
    by_cases hk : p.1 ∈ (Cache.toDelete range c count).map CacheValue.key
    · exact Cache.mem_deleted hwf hp hp' hk
    · simp [hk] at h
  · intro h
    have hk : p.1 ∈ (Cache.toDelete range c count).map CacheValue.key :=
      List.mem_map.2 ⟨p.2, h, hwf.2 p hp'⟩
    simp [hk]

/-- C19 (index consistency).  In every state reached from `New()` by a sequence
of public calls that return, every entry stored under map key `k` carries the
key field `k`, no key occurs twice, distinct entries have distinct key fields,
and therefore a pass of `Evict` with a non-negative count removes exactly the
entries of the slice `to_delete` it selected: a pair of the map is gone
afterwards iff its entry is in that slice. -/
theorem C19_index_consistency {α : Type} (c : Cache α) (h : ReachableNew c) :
    (∀ k e, mapIndex c.values k = some e → e.key = k) ∧
    (∀ p ∈ c.values, p.2.key = p.1) ∧
    (c.values.map Prod.fst).Nodup ∧
    (∀ p ∈ c.values, ∀ q ∈ c.values, p.2.key = q.2.key → p = q) ∧
    (∀ (range : GoMap α) (count : Int), c.IsRange range → 0 ≤ count →
      ∃ c' : Cache α, c.Evict range count = some (c', min c.Len count) ∧
        ∀ p ∈ c.values, (c'.Has p.1 = false ↔ p.2 ∈ Cache.toDelete range c count)) := by
  have hwf := ReachableNew.index_wf h
  refine ⟨?_, hwf.2, hwf.1, ?_, ?_⟩
  · intro k e he
    exact hwf.2 (k, e) (mapIndex_mem he)
  · intro p hp q hq hpq
    apply nodup_keys_unique hwf.1 hp hq
    rw [← hwf.2 p hp, ← hwf.2 q hq]
    exact hpq
  · intro range count hr h0
    exact Cache.Evict_removes_selected range c count hwf hr h0

/-- Witness of C19: the state after `New()` and `Set("a", 1)`. -/
theorem C19_index_consistency_witness :
    ReachableNew single ∧
    (∀ k e, mapIndex single.values k = some e → e.key = k) ∧
    (∀ p ∈ single.values, p.2.key = p.1) ∧
    (single.values.map Prod.fst).Nodup ∧
    (∀ p ∈ single.values, ∀ q ∈ single.values, p.2.key = q.2.key → p = q) ∧
    (∀ (range : GoMap Nat) (count : Int), single.IsRange range → 0 ≤ count →
      ∃ c' : Cache Nat, single.Evict range count = some (c', min single.Len count) ∧
        ∀ p ∈ single.values,
          (c'.Has p.1 = false ↔ p.2 ∈ Cache.toDelete range single count)) :=
  ⟨single_reachableNew, C19_index_consistency single single_reachableNew⟩

/-! ## Independence of the iteration order -/

/-- When `low` holds `k` pairs of the map whose frequencies are all smaller than
those of the remaining pairs, a pass with count `k` removes exactly the keys of
`low`, whatever the visiting order. -/
theorem Cache.Evict_cut {α : Type} (range : GoMap α) (c : Cache α) (hwf : c.WF)
    (hr : c.IsRange range) (low high : GoMap α) (hperm : (low ++ high).Perm c.values)
    (hlt : ∀ a ∈ low, ∀ b ∈ high, a.2.freq < b.2.freq) :
    c.Evict range (low.length : Int)
      = some (⟨c.UpperBound, c.LowerBound,
                (c.values.filter (fun p => decide (p.1 ∉ low.map Prod.fst))).map
                  (fun p => (p.1, { p.2 with freq := 1 }))⟩, (low.length : Int)) := by
  obtain ⟨K, D, hp, hD, hle, hev⟩ :=
    Cache.Evict_split range c (low.length : Int) hr (by omega)
  have hlen : low.length + high.length = c.values.length := by
    rw [← List.length_append, hperm.length_eq]
  have hmin : min (c.values.length : Int) (low.length : Int) = (low.length : Int) :=
    min_eq_right (by omega)
  rw [hmin] at hD hev
  have hkeys := Cache.keys_perm hwf hp
  have hndS : ((K ++ D).map CacheValue.key).Nodup := hkeys.nodup_iff.2 hwf.1
  rw [List.map_append] at hndS
  have hndD : (D.map CacheValue.key).Nodup := (List.nodup_append.1 hndS).2.1
  have hndLH : ((low ++ high).map Prod.fst).Nodup :=
    ((List.Perm.map Prod.fst hperm).nodup_iff).2 hwf.1
  rw [List.map_append] at hndLH
  have hndL : (low.map Prod.fst).Nodup := (List.nodup_append.1 hndLH).1
  have hdisj := (List.nodup_append.1 hndLH).2.2
  have hlow_sub : ∀ p ∈ low, p ∈ c.values :=
    fun p hp' => hperm.subset (List.mem_append_left _ hp')
  -- every key field of the deleted slice is a key of `low`
  have hDL : D.map CacheValue.key ⊆ low.map Prod.fst := by
    intro x hx
    by_contra hxL
    obtain ⟨d, hd, hdx⟩ := List.mem_map.1 hx
    have hdS : d ∈ c.values.map Prod.snd := hp.subset (List.mem_append_right _ hd)
    obtain ⟨q, hq, hqd⟩ := List.mem_map.1 hdS
    have hqx : q.1 = x := by rw [← hwf.2 q hq, hqd, hdx]
    have hqhigh : q ∈ high := by
      rcases List.mem_append.1 (hperm.symm.subset hq) with h | h
      · exact absurd (List.mem_map.2 ⟨q, h, hqx⟩) hxL
      · exact h
    have hLD : low.map Prod.fst ⊆ D.map CacheValue.key := by
      intro y hy
      obtain ⟨p, hpl, hpy⟩ := List.mem_map.1 hy
      have hpv := hlow_sub p hpl
      have hpS : p.2 ∈ K ++ D := hp.symm.subset (List.mem_map.2 ⟨p, hpv, rfl⟩)
      rcases List.mem_append.1 hpS with h | h
      · have h1 := hle p.2 h d hd
        have h2 := hlt p hpl q hqhigh
        rw [hqd] at h2
        omega
      · exact List.mem_map.2 ⟨p.2, h, (hwf.2 p hpv).trans hpy⟩
    have hcons : (x :: low.map Prod.fst).Nodup := List.nodup_cons.2 ⟨hxL, hndL⟩
    have hsub : x :: low.map Prod.fst ⊆ D.map CacheValue.key := by
      intro y hy
      rcases List.mem_cons.1 hy with h | h
      · rw [h]
        exact hx
      · exact hLD h
    have := (List.subperm_of_subset hcons hsub).length_le
    simp only [List.length_cons, List.length_map] at this
    omega
  have hpermDL : (D.map CacheValue.key).Perm (low.map Prod.fst) :=
    (List.subperm_of_subset hndD hDL).perm_of_length_le (by
      simp only [List.length_map]
      omega)
  have hfilter : c.values.filter (fun p => decide (p.1 ∉ D.map CacheValue.key))
      = c.values.filter (fun p => decide (p.1 ∉ low.map Prod.fst)) := by
    apply List.filter_congr
    intro p _
    simp only [hpermDL.mem_iff]
  rw [hev, hfilter]

/-- When two entries of equal frequency straddle the cut, the removed key
depends on the visiting order: with count 1 in the bounded-eviction scenario,
`d` is removed under one order and `c` under another. -/
theorem Cache.Evict_tie_depends_on_order :
    scenario.IsRange [("a", ⟨some 1, 3, "a"⟩), ("b", ⟨some 2, 2, "b"⟩),
      ("d", ⟨some 4, 1, "d"⟩), ("c", ⟨some 3, 1, "c"⟩)] ∧
    (scenario.Evict scenario.values 1).map (fun r => (r.1.Has "c", r.1.Has "d"))
      = some (true, false) ∧
    (scenario.Evict [("a", ⟨some 1, 3, "a"⟩), ("b", ⟨some 2, 2, "b"⟩),
      ("d", ⟨some 4, 1, "d"⟩), ("c", ⟨some 3, 1, "c"⟩)] 1).map
        (fun r => (r.1.Has "c", r.1.Has "d")) = some (false, true) :=
  ⟨List.Perm.cons _ (List.Perm.cons _ (List.Perm.swap _ _ _)), by decide, by decide⟩

/-- C20 (eviction is independent of the iteration order when there is no tie at
the cut).  For every cache state and count `k` such that `k = 0`, or
`k = Len()`, or some `k` entries of the map all have a frequency strictly below
that of every other entry (each case gives `0 ≤ k ≤ Len()`), `Evict(k)` returns
the same count and the same state, hence removes the same keys, for every two
orders in which the index is iterated. -/
theorem C20_evict_order_independent {α : Type} (c : Cache α) (k : Int) (r1 r2 : GoMap α)
    (hwf : c.WF) (h1 : c.IsRange r1) (h2 : c.IsRange r2)
    (hcut : k = 0 ∨ k = c.Len ∨
      ∃ low high : GoMap α, (low ++ high).Perm c.values ∧ (low.length : Int) = k ∧
        ∀ a ∈ low, ∀ b ∈ high, a.2.freq < b.2.freq) :
    c.Evict r1 k = c.Evict r2 k ∧ ∃ c' : Cache α, c.Evict r1 k = some (c', k) := by
  have hex : ∃ low high : GoMap α, (low ++ high).Perm c.values ∧ (low.length : Int) = k ∧
      ∀ a ∈ low, ∀ b ∈ high, a.2.freq < b.2.freq := by
    rcases hcut with h | h | h
    · refine ⟨[], c.values, List.Perm.refl _, ?_, ?_⟩
      · rw [h]
        rfl
      · intro a ha
        cases ha
    · refine ⟨c.values, [], ?_, ?_, ?_⟩
      · rw [List.append_nil]
      · rw [h]
        rfl
      · intro a _ b hb
        cases hb
    · exact h
  obtain ⟨low, high, hperm, hlen, hlt⟩ := hex
  have e1 := Cache.Evict_cut r1 c hwf h1 low high hperm hlt
  have e2 := Cache.Evict_cut r2 c hwf h2 low high hperm hlt
  rw [hlen] at e1 e2
  exact ⟨e1.trans e2.symm, _, e1⟩

/-- Witness of C20: the bounded-eviction scenario with `k = 2`; `c` and `d`
(frequency 1) lie strictly below `a` and `b` (frequencies 3 and 2). -/
theorem C20_evict_order_independent_witness :
    scenario.WF ∧ scenario.IsRange scenarioRange ∧ scenario.IsRange scenario.values ∧
    ((2 : Int) = 0 ∨ (2 : Int) = scenario.Len ∨
      ∃ low high : GoMap Nat, (low ++ high).Perm scenario.values ∧ (low.length : Int) = 2 ∧
        ∀ a ∈ low, ∀ b ∈ high, a.2.freq < b.2.freq) ∧
    scenario.Evict scenarioRange 2 = scenario.Evict scenario.values 2 ∧
    ∃ c' : Cache Nat, scenario.Evict scenarioRange 2 = some (c', 2) :=
  have hcut : (2 : Int) = 0 ∨ (2 : Int) = scenario.Len ∨
      ∃ low high : GoMap Nat, (low ++ high).Perm scenario.values ∧ (low.length : Int) = 2 ∧
        ∀ a ∈ low, ∀ b ∈ high, a.2.freq < b.2.freq :=
    Or.inr (Or.inr ⟨[("c", ⟨some 3, 1, "c"⟩), ("d", ⟨some 4, 1, "d"⟩)],
      [("a", ⟨some 1, 3, "a"⟩), ("b", ⟨some 2, 2, "b"⟩)],
      List.perm_append_comm, by decide, by decide⟩)
  ⟨Cache.scenario_wf, Cache.scenario_isRange, List.Perm.refl _, hcut,
    C20_evict_order_independent scenario 2 scenarioRange scenario.values Cache.scenario_wf
      Cache.scenario_isRange (List.Perm.refl _) hcut⟩

end GoLfuCache
